import Mathlib

/-!
Verification of the LZW codec in `lzw.hpp` (namespace `lzw`).

Symbols of both alphabets are modelled as natural numbers (`CharT` values).
An alphabet (`piecewise_range<...>`) is a list of `symbol_range`s.
Machine integers (`size_t`) are modelled as `Nat`; the code never relies on
overflow on the paths the claims exercise (noted inline where relevant).
Exceptions are modelled by `Except Err`.
-/

namespace LZW

/-- `symbol_range<CharT, Lower, Upper>`: a non-empty continuous symbol range.
The C++ `static_assert(Lower <= Upper)` is captured by `wf_ranges` below. -/
structure symbol_range where
  lower : Nat
  upper : Nat
deriving DecidableEq, Repr

/-- `symbol_range::length = Upper - Lower + 1`. -/
def symbol_range.rlen (r : symbol_range) : Nat := r.upper - r.lower + 1

/-- `piecewise_range<...>::length`: total amount of symbols. -/
def pw_length : List symbol_range → Nat
  | [] => 0
  | r :: rs => r.rlen + pw_length rs

/-- `piecewise_range::symbol_by_index`. The single-piece base case throws
`std::out_of_range` when `idx >= length`; a throw is modelled as `none`. -/
def symbol_by_index : List symbol_range → Nat → Option Nat
  | [], _ => none
  | r :: rs, idx => if idx < r.rlen then some (r.lower + idx)
                    else symbol_by_index rs (idx - r.rlen)

/-- `piecewise_range::index_of_symbol`; a throw is modelled as `none`. -/
def index_of_symbol : List symbol_range → Nat → Option Nat
  | [], _ => none
  | r :: rs, c => if r.lower ≤ c ∧ c ≤ r.upper then some (c - r.lower)
                  else (index_of_symbol rs c).map (fun i => r.rlen + i)

/-- Well-formed alphabet: each range has `Lower <= Upper` (the `symbol_range`
static_assert) and distinct pieces are disjoint (implicit in every predefined
dictionary; lookups are only mutually inverse under this assumption). -/
def wf_ranges : List symbol_range → Bool
  | [] => true
  | r :: rs =>
      (decide (r.lower ≤ r.upper) &&
        rs.all (fun q => decide (r.upper < q.lower) || decide (q.upper < r.lower))) &&
      wf_ranges rs

/-- `details::log2_floor` (`@pre x > 0`; the recursion does not terminate at
`x = 0` in C++, the `0` result there is an unreachable placeholder). -/
def log2_floor (x : Nat) : Nat :=
  if x ≤ 1 then 0 else 1 + log2_floor (x / 2)
decreasing_by exact Nat.div_lt_self (by omega) (by omega)

/-- `details::log2_ceil`. -/
def log2_ceil (x : Nat) : Nat :=
  if x ≤ 1 then 1 else log2_floor (x - 1) + 1

/-- `CHAR_BIT * sizeof(size_t)` on the reference platform. -/
def size_t_bits : Nat := 64

/-- Exceptions thrown by the codec:
`outOfRange` = `std::out_of_range` from alphabet lookups;
`badData1`/`badData2` = `std::logic_error{"lzw_codec: bad data 1"/"2"}`
(the MalformedStream errors of the spec);
`depthOverflow` = `std::logic_error{"lzw_codec: bit_depth > log2(size_t)"}` and
`depthUnpackable` = `std::logic_error{"lzw_codec: bit_depth > PackDict::length"}`
(the CapacityExceeded errors of the spec). -/
inductive Err where
  | outOfRange
  | badData1
  | badData2
  | depthOverflow
  | depthUnpackable
deriving DecidableEq, Repr

/-- `symbol_by_index` with the throw made explicit. -/
def sbi (D : List symbol_range) (i : Nat) : Except Err Nat :=
  match symbol_by_index D i with
  | some s => .ok s
  | none => .error .outOfRange

/-- `index_of_symbol` with the throw made explicit. -/
def ios (D : List symbol_range) (c : Nat) : Except Err Nat :=
  match index_of_symbol D c with
  | some i => .ok i
  | none => .error .outOfRange

/-- Total variant of `symbol_by_index`, used where the index is in range by
construction (base dictionary building). -/
def sym_at (D : List symbol_range) (i : Nat) : Nat :=
  (symbol_by_index D i).getD 0

/-- Sequential application of a fallible map, modelling a loop that converts
each element and aborts on the first throw. -/
def mapExcept (f : Nat → Except Err Nat) : List Nat → Except Err (List Nat)
  | [] => .ok []
  | a :: as => do
      let b ← f a
      let bs ← mapExcept f as
      .ok (b :: bs)

/-- `lzw_codec::bit_capacity = log2_floor(PackDict::length)`. -/
def bit_capacity (P : List symbol_range) : Nat := log2_floor (pw_length P)

/-- The inner `for(code_done...)` loop of `pack_bits`, for one code: writes the
bits `[code_done, bit_depth)` of `code` into the running accumulator, emitting
a finished symbol index whenever `symbol_done` reaches `bit_capacity`.
Returns (emitted symbol indices, final `symbol_done`, final `symbol_acc`).
The `symbol_done < cap` guard marks a state (only reachable when
`bit_capacity = 0`) in which the C++ loop never terminates. -/
def pack_code_bits (cap bit_depth code : Nat) (code_done symbol_done symbol_acc : Nat) :
    List Nat × Nat × Nat :=
  if _h : code_done < bit_depth then
    if _h2 : symbol_done < cap then
      let symbol_left := cap - symbol_done
      let code_left := bit_depth - code_done
      let bits_to_write := min symbol_left code_left
      let mask := ((code >>> code_done) &&& ((1 <<< bits_to_write) - 1)) <<< symbol_done
      let symbol_acc' := symbol_acc ||| mask
      let code_done' := code_done + bits_to_write
      let symbol_done' := symbol_done + bits_to_write
      if symbol_done' = cap then
        let r := pack_code_bits cap bit_depth code code_done' 0 0
        (symbol_acc' :: r.1, r.2)
      else
        pack_code_bits cap bit_depth code code_done' symbol_done' symbol_acc'
    else ([], symbol_done, symbol_acc)
  else ([], symbol_done, symbol_acc)
termination_by bit_depth - code_done
decreasing_by all_goals omega

/-- The outer `for(auto code : src)` loop of `pack_bits`, plus the final
`if(symbol_done != 0)` flush. Produces the payload symbol indices. -/
def pack_loop (cap bit_depth : Nat) : List Nat → Nat → Nat → List Nat
  | [], symbol_done, symbol_acc => if symbol_done ≠ 0 then [symbol_acc] else []
  | code :: rest, symbol_done, symbol_acc =>
      let r := pack_code_bits cap bit_depth code 0 symbol_done symbol_acc
      r.1 ++ pack_loop cap bit_depth rest r.2.1 r.2.2

/-- `dead_bits` as computed by `pack_bits`:
`output_symbols*bit_capacity - bits_needed` with
`output_symbols = (bits_needed - 1)/bit_capacity + 1`. -/
def pack_dead_bits (cap bits_needed : Nat) : Nat :=
  ((bits_needed - 1) / cap + 1) * cap - bits_needed

/-- `lzw_codec::pack_bits`. Emits the two header symbols (`bit_depth`,
`dead_bits`) then the packed payload. The C++ version looks each payload
symbol up at flush time; since the loop itself cannot throw, converting the
finished index list with `mapExcept` yields the same value (and the same
exception when some index is out of range of the pack alphabet). -/
def pack_bits (P : List symbol_range) (src : List Nat) (bit_depth : Nat) :
    Except Err (List Nat) := do
  let cap := bit_capacity P
  let bits_needed := bit_depth * src.length
  let dead_bits := pack_dead_bits cap bits_needed
  let h1 ← sbi P bit_depth
  let h2 ← sbi P dead_bits
  let body ← mapExcept (sbi P) (pack_loop cap bit_depth src 0 0)
  .ok (h1 :: h2 :: body)

/-- The inner `while(code_done < bit_depth)` loop of `unpack_bits`, over symbol
indices: assembles one code. `remaining` holds the indices of the
not-yet-loaded symbols, `chunk` the index of the currently loaded symbol,
`symbol_done` the bits of it already consumed, and (`code_acc`, `code_done`)
the partially assembled current code. Returns the state at loop exit,
`(remaining, chunk, symbol_done, code_acc, code_done, done)` — `done` is the
`bool done` stop flag of the source. The terminal `symbol_done ≥ cap` branch
(reachable only when `bit_capacity = 0`) is a state in which the C++ loop
never terminates; no claim depends on it. -/
def unpack_code (cap bit_depth dead_bits : Nat)
    (remaining : List Nat) (chunk symbol_done code_acc code_done : Nat) :
    List Nat × Nat × Nat × Nat × Nat × Bool :=
  if _h : code_done < bit_depth then
    if cap - symbol_done = dead_bits ∧ code_done = 0 ∧ remaining = [] then
      (remaining, chunk, symbol_done, code_acc, code_done, true)
    else if _h2 : symbol_done < cap then
      let bits_to_read := min (cap - symbol_done) (bit_depth - code_done)
      let data := ((chunk >>> symbol_done) &&& ((1 <<< bits_to_read) - 1)) <<< code_done
      let code_acc' := code_acc ||| data
      let code_done' := code_done + bits_to_read
      let symbol_done' := symbol_done + bits_to_read
      if symbol_done' = cap then
        match remaining with
        | [] => (remaining, chunk, symbol_done', code_acc', code_done', true)
        | c :: rest => unpack_code cap bit_depth dead_bits rest c 0 code_acc' code_done'
      else
        unpack_code cap bit_depth dead_bits remaining chunk symbol_done' code_acc' code_done'
    else (remaining, chunk, symbol_done, code_acc, code_done, true)
  else (remaining, chunk, symbol_done, code_acc, code_done, false)
termination_by bit_depth - code_done
decreasing_by all_goals omega

/-- The outer `do { ... } while(!done)` loop of `unpack_bits`: reads one code
with `unpack_code`, emits it when `code_done > 0`
(`if(code_done > 0) *d_first++ = code_acc`), and repeats until `done`.
`budget` bounds the number of `do`-iterations: every terminating C++ run with
`bit_depth ≥ 1` performs at most one iteration per `bit_depth` consumed bits
plus a final one, so the budget passed by `unpack_bits` (one more than the
total payload bit count) is never exhausted — `unpack_loop_spec` proves the
loop's value under that budget. The `budget = 0` branch therefore only stands
in for the non-terminating C++ runs (`bit_depth = 0`). -/
def unpack_loop (budget cap bit_depth dead_bits : Nat)
    (remaining : List Nat) (chunk symbol_done : Nat) : List Nat :=
  match budget with
  | 0 => []
  | budget + 1 =>
      match unpack_code cap bit_depth dead_bits remaining chunk symbol_done 0 0 with
      | (remaining', chunk', symbol_done', code_acc', code_done', done) =>
          (if 0 < code_done' then [code_acc'] else []) ++
            (if done then []
             else unpack_loop budget cap bit_depth dead_bits remaining' chunk' symbol_done')

/-- `lzw_codec::unpack_bits`. Empty input returns without touching `dst`;
a one-symbol input throws "bad data 1" (after decoding the header symbol),
a two-symbol input throws "bad data 2". Otherwise the two header values and
the first chunk are read and the main loop runs. The C++ version converts
each later symbol on demand; every terminating run consumes the whole input
(both stop conditions require `first == last`), so converting the tail up
front with `mapExcept` yields the same codes and the same exception
behaviour. The `input_length`/`out_length` computation of the source is only
a `reserve` capacity hint and has no observable effect. -/
def unpack_bits (P : List symbol_range) (input : List Nat) : Except Err (List Nat) :=
  match input with
  | [] => .ok []
  | [s0] => do
      let _ ← ios P s0
      .error .badData1
  | [s0, s1] => do
      let _ ← ios P s0
      let _ ← ios P s1
      .error .badData2
  | s0 :: s1 :: s2 :: rest => do
      let bit_depth ← ios P s0
      let dead_bits ← ios P s1
      let chunk ← ios P s2
      let chunks ← mapExcept (ios P) rest
      .ok (unpack_loop (bit_capacity P * (chunks.length + 1) + 1) (bit_capacity P)
        bit_depth dead_bits chunks chunk 0)

/-- `lzw_codec::decode_dict()`: phrase (singleton) for each code in
`[0, IODict::length)`. `symbol_by_index` cannot throw here since the index
is below the length by construction. -/
def decode_dict (D : List symbol_range) : List (List Nat) :=
  (List.range (pw_length D)).map (fun c => [sym_at D c])

/-- `lzw_codec::encode_dict()`: `std::map<phrase, code>` modelled as the
association list of its entries in insertion order (`emplace` keeps the first
binding of a key, so a duplicate singleton — possible only for overlapping
ranges — is skipped exactly as in C++). -/
def encode_dict (D : List symbol_range) : List (List Nat × Nat) :=
  (List.range (pw_length D)).foldl
    (fun d c =>
      if (d.lookup [sym_at D c]).isSome then d else d ++ [([sym_at D c], c)])
    []

/-- The `while(first != last)` loop of `encode` plus the final
`emplace_code()`. `dict.at(phrase)` is modelled by `lookup` with default `0`;
the loop keeps `phrase` a key of `dict`, so the `std::out_of_range` of `at`
is unreachable. `emplace(tmp, next_code)` appends iff `tmp` is not yet a key.
Returns (emitted codes, final `max_code`). -/
def encode_loop (dict : List (List Nat × Nat)) (next_code max_code : Nat)
    (codes : List Nat) (phrase : List Nat) : List Nat → List Nat × Nat
  | [] =>
      let code := (dict.lookup phrase).getD 0
      (codes ++ [code], max max_code code)
  | s :: rest =>
      let tmp := phrase ++ [s]
      if (dict.lookup tmp).isSome then
        encode_loop dict next_code max_code codes tmp rest
      else
        let dict' := dict ++ [(tmp, next_code)]
        let code := (dict'.lookup phrase).getD 0
        encode_loop dict' (next_code + 1) (max max_code code) (codes ++ [code]) [s] rest

/-- The code-producing pass of `encode` on non-empty input `first :: rest`:
`next_code = dict.size()`, `max_code = next_code - 1`, `phrase = [*first]`. -/
def encode_pass (D : List symbol_range) (first : Nat) (rest : List Nat) :
    List Nat × Nat :=
  let dict := encode_dict D
  encode_loop dict dict.length (dict.length - 1) [] [first] rest

/-- `lzw_codec::encode`. Empty input produces empty output. Otherwise the
emitted codes and `max_code` are computed, `bit_depth = log2_ceil(max_code+1)`
is checked against the native width and `PackDict::length`, and the codes are
packed. Both capacity failures abort before any packing. -/
def encode (D P : List symbol_range) (input : List Nat) : Except Err (List Nat) :=
  match input with
  | [] => .ok []
  | first :: rest =>
      let r := encode_pass D first rest
      let bit_depth := log2_ceil (r.2 + 1)
      if size_t_bits < bit_depth then .error .depthOverflow
      else if pw_length P ≤ bit_depth then .error .depthUnpackable
      else pack_bits P r.1 bit_depth

/-- The `for(i = 1; i < sz; ++i)` loop of `decode`. `rdict[i]` for an index
out of range of the `std::vector` is undefined behaviour in C++; it is
modelled by `getD` with default `[]` (such reads only happen for `old` /
`entry`, which the loop keeps in range on every input reachable without
undefined behaviour). A code `≥ rdict.size()` takes the self-referential
branch unconditionally — there is no validity check. -/
def decode_loop (rdict : List (List Nat)) (old : Nat) : List Nat → List Nat
  | [] => []
  | code :: rest =>
      let tmp := rdict.getD old []
      if code < rdict.length then
        let entry := rdict.getD code []
        entry ++ decode_loop (rdict ++ [tmp ++ [entry.getD 0 0]]) code rest
      else
        let tmp' := tmp ++ [tmp.getD 0 0]
        tmp' ++ decode_loop (rdict ++ [tmp']) code rest

/-- The phrase-reconstruction part of `decode` applied to the unpacked codes.
`codes[0]` on an empty vector is undefined behaviour in C++ (an empty code
vector can only come out of a malformed stream); it is modelled by `[]`. -/
def decode_codes (D : List symbol_range) : List Nat → List Nat
  | [] => []
  | c0 :: rest =>
      let rdict := decode_dict D
      rdict.getD c0 [] ++ decode_loop rdict c0 rest

/-- `lzw_codec::decode`: empty input produces empty output; otherwise the
stream is unpacked (propagating its exceptions) and the codes decoded. -/
def decode (D P : List symbol_range) (input : List Nat) : Except Err (List Nat) :=
  match input with
  | [] => .ok []
  | _ :: _ => do
      let codes ← unpack_bits P input
      .ok (decode_codes D codes)

/-! ### Proof-side views of the bit streams.

`digitsLE cap k v` is the little-endian base-`2^cap` digit expansion of `v`
(`k` digits), `chunkNum` and `codeNum` the inverse valuations. `unpackNum`
is the arithmetic description of the unpacking loop, driven by the number `R`
of unread payload bits and their value `M`. -/

/-- Little-endian base-`2^cap` digits of `v`, `k` of them. -/
def digitsLE (cap : Nat) : Nat → Nat → List Nat
  | 0, _ => []
  | k + 1, v => v % 2 ^ cap :: digitsLE cap k (v / 2 ^ cap)

/-- Valuation of a little-endian base-`2^cap` digit list. -/
def chunkNum (cap : Nat) : List Nat → Nat
  | [] => 0
  | c :: rest => c + chunkNum cap rest * 2 ^ cap

/-- Valuation of a code sequence as a packed little-endian bit stream,
`bit_depth` bits per code (the packer masks each code to its low bits). -/
def codeNum (bit_depth : Nat) : List Nat → Nat
  | [] => 0
  | c :: rest => c % 2 ^ bit_depth + codeNum bit_depth rest * 2 ^ bit_depth

/-- Arithmetic description of the unpacking loop at a code boundary:
`R` unread payload bits remain with value `M`. The loop stops silently when
`R = dead_bits`; if the input runs out mid-code (`R ≤ bit_depth` without
hitting `dead_bits` first) the partially assembled code is still emitted;
otherwise a full code is cut off and the loop continues. (`bit_depth = 0`
is the non-terminating C++ state.) -/
def unpackNum (bit_depth dead_bits R M : Nat) : List Nat :=
  if bit_depth = 0 then []
  else if R = dead_bits then []
  else if R ≤ bit_depth then [M]
  else M % 2 ^ bit_depth :: unpackNum bit_depth dead_bits (R - bit_depth) (M / 2 ^ bit_depth)
termination_by R
decreasing_by omega

/-- The `std::map` content of an encoder dictionary whose phrases, listed in
code order, are `l`: the association list of pairs `(phrase, code)`. -/
def dict_pairs (l : List (List Nat)) : List (List Nat × Nat) :=
  l.enum.map (fun p => (p.2, p.1))

/-- Position of the first occurrence of phrase `p` in the phrase list `l`
(the code the encoder dictionary assigns to `p`). -/
def phrase_index (p : List Nat) : List (List Nat) → Nat
  | [] => 0
  | a :: t => if p = a then 0 else phrase_index p t + 1

/-! ### Concrete alphabets used to instantiate the claims.

`dictionaries::binary` (2 symbols) up to `dictionaries::ASCII_128_common`
(128 symbols) are `piecewise_range`s of one piece; any `symbol_range`
instantiation is legal C++, so small alphabets such as `[0, 3]` are valid
codec parameters as well. -/

/-- A 4-symbol input alphabet, `piecewise_range<symbol_range<char, 0, 3>>`. -/
def D4 : List symbol_range := [⟨0, 3⟩]

/-- A 5-symbol pack alphabet, `piecewise_range<symbol_range<char, 0, 4>>`. -/
def P5 : List symbol_range := [⟨0, 4⟩]

/-- An 8-symbol pack alphabet, `piecewise_range<symbol_range<char, 0, 7>>`. -/
def P8 : List symbol_range := [⟨0, 7⟩]

/-- A 16-symbol alphabet, `piecewise_range<symbol_range<char, 0, 15>>`
(used both as input and as pack alphabet). -/
def D16 : List symbol_range := [⟨0, 15⟩]

/-- The same 16-symbol alphabet in its pack-side role. -/
def P16 : List symbol_range := [⟨0, 15⟩]

instance {ε α : Type} [DecidableEq ε] [DecidableEq α] : DecidableEq (Except ε α) :=
  fun a b =>
    match a, b with
    | .ok x, .ok y =>
        if h : x = y then isTrue (by rw [h])
        else isFalse (fun hc => h (Except.ok.inj hc))
    | .error e, .error f =>
        if h : e = f then isTrue (by rw [h])
        else isFalse (fun hc => h (Except.error.inj hc))
    | .ok _, .error _ => isFalse (fun hc => Except.noConfusion hc)
    | .error _, .ok _ => isFalse (fun hc => Except.noConfusion hc)

/-! ### Arithmetic facts about the bit-width helpers -/

theorem log2_floor_two_pow (k : Nat) : log2_floor (2 ^ k) = k := by
  induction k with
  | zero => simp [log2_floor]
  | succ n ih =>
      rw [log2_floor]
      have h1 : ¬ 2 ^ (n + 1) ≤ 1 := by
        have := Nat.one_lt_two_pow_iff.mpr (Nat.succ_ne_zero n)
        omega
      have h2 : 2 ^ (n + 1) / 2 = 2 ^ n := by
        rw [Nat.pow_succ]
        exact Nat.mul_div_cancel _ (by omega)
      simp [h1, h2, ih]
      omega

theorem log2_floor_two_pow_sub_one (k : Nat) : log2_floor (2 ^ (k + 1) - 1) = k := by
  induction k with
  | zero => simp [log2_floor]
  | succ n ih =>
      rw [log2_floor]
      have hp : (2:Nat) ^ (n + 2) = 2 * 2 ^ (n + 1) := by ring
      have hp1 : (2:Nat) ^ (n + 1) ≥ 2 := by
        have := Nat.one_lt_two_pow_iff.mpr (Nat.succ_ne_zero n)
        omega
      have h1 : ¬ 2 ^ (n + 2) - 1 ≤ 1 := by omega
      have h2 : (2 ^ (n + 2) - 1) / 2 = 2 ^ (n + 1) - 1 := by omega
      simp [h1, h2, ih]
      omega

theorem two_pow_log2_floor_le (x : Nat) (hx : 1 ≤ x) : 2 ^ log2_floor x ≤ x := by
  induction x using Nat.strong_induction_on with
  | _ x ih =>
      rw [log2_floor]
      by_cases h : x ≤ 1
      · simpa [h] using hx
      · have hdiv : 2 ^ log2_floor (x / 2) ≤ x / 2 :=
          ih (x / 2) (Nat.div_lt_self (by omega) (by omega)) (by omega)
        simp only [h, if_false]
        have : 2 ^ (1 + log2_floor (x / 2)) = 2 * 2 ^ log2_floor (x / 2) := by
          rw [Nat.pow_add, Nat.pow_one]
        rw [this]
        omega

theorem lt_two_pow_log2_floor_succ (x : Nat) : x < 2 ^ (log2_floor x + 1) := by
  induction x using Nat.strong_induction_on with
  | _ x ih =>
      rw [log2_floor]
      by_cases h : x ≤ 1
      · simp [h]; omega
      · have hdiv : x / 2 < 2 ^ (log2_floor (x / 2) + 1) :=
          ih (x / 2) (Nat.div_lt_self (by omega) (by omega))
        simp only [h, if_false]
        have : 2 ^ (1 + log2_floor (x / 2) + 1) = 2 * 2 ^ (log2_floor (x / 2) + 1) := by
          rw [Nat.pow_add, Nat.pow_add, Nat.pow_add, Nat.pow_one]
          ring
        rw [this]
        omega

theorem log2_ceil_pos (x : Nat) : 1 ≤ log2_ceil x := by
  rw [log2_ceil]
  split <;> omega

theorem le_two_pow_log2_ceil (x : Nat) : x ≤ 2 ^ log2_ceil x := by
  rw [log2_ceil]
  by_cases h : x ≤ 1
  · simp [h]; omega
  · simp only [h, if_false]
    have := lt_two_pow_log2_floor_succ (x - 1)
    omega

theorem log2_ceil_le (x e : Nat) (he : 1 ≤ e) (h : x ≤ 2 ^ e) : log2_ceil x ≤ e := by
  rw [log2_ceil]
  by_cases hx : x ≤ 1
  · simpa [hx] using he
  · simp only [hx, if_false]
    have h1 : 2 ^ log2_floor (x - 1) ≤ x - 1 := two_pow_log2_floor_le _ (by omega)
    have h2 : 2 ^ log2_floor (x - 1) < 2 ^ e := by omega
    have := (Nat.pow_lt_pow_iff_right (a := 2) (by omega)).mp h2
    omega

/-- C9: `log2_ceil` obeys the exact rounding contract: `log2_ceil(1) == 1`,
`log2_ceil(2^k) == k` for every `k ≥ 1`, and `log2_ceil(2^k + 1) == k + 1`
for every `k ≥ 0`. -/
theorem C9_log2_ceil_contract :
    log2_ceil 1 = 1 ∧ (∀ k, log2_ceil (2 ^ (k + 1)) = k + 1) ∧
      (∀ k, log2_ceil (2 ^ k + 1) = k + 1) := by
  refine ⟨by simp [log2_ceil], fun k => ?_, fun k => ?_⟩
  · rw [log2_ceil]
    have h1 : ¬ 2 ^ (k + 1) ≤ 1 := by
      have := Nat.one_lt_two_pow_iff.mpr (Nat.succ_ne_zero k)
      omega
    simp [h1, log2_floor_two_pow_sub_one]
  · rw [log2_ceil]
    have h1 : ¬ 2 ^ k + 1 ≤ 1 := by
      have := Nat.pos_pow_of_pos k (show 0 < 2 by omega)
      omega
    simp [h1, log2_floor_two_pow]

/-! ### Bit-juggling helpers -/

theorem or_mul_two_pow (s a m : Nat) (ha : a < 2 ^ s) : a ||| m * 2 ^ s = a + m * 2 ^ s := by
  rw [Nat.lor_comm]
  rw [show m * 2 ^ s = 2 ^ s * m from Nat.mul_comm m _]
  rw [← Nat.mul_add_lt_is_or ha]
  ring

theorem mod_pow_split (x a b : Nat) :
    x % 2 ^ (a + b) = x % 2 ^ a + (x / 2 ^ a % 2 ^ b) * 2 ^ a := by
  rw [Nat.pow_add, Nat.mod_mul]
  ring

theorem div_mod_pow (x a b : Nat) : x % 2 ^ (a + b) / 2 ^ a = x / 2 ^ a % 2 ^ b := by
  rw [Nat.pow_add]
  exact Nat.mod_mul_right_div_self x (2 ^ a) (2 ^ b)

theorem div_div_pow (x a b : Nat) : x / 2 ^ a / 2 ^ b = x / 2 ^ (a + b) := by
  rw [Nat.div_div_eq_div_mul, Nat.pow_add]

theorem add_bound_two_pow (s b a m : Nat) (ha : a < 2 ^ s) (hm : m < 2 ^ b) :
    a + m * 2 ^ s < 2 ^ (s + b) := by
  have h2 : (2:Nat) ^ (s + b) = 2 ^ b * 2 ^ s := by rw [Nat.pow_add]; ring
  have h4 : m * 2 ^ s + 2 ^ s ≤ 2 ^ b * 2 ^ s := by
    calc m * 2 ^ s + 2 ^ s = (m + 1) * 2 ^ s := by ring
    _ ≤ 2 ^ b * 2 ^ s := Nat.mul_le_mul_right _ hm
  omega

/-! ### Facts about `digitsLE` and the valuations -/

theorem digitsLE_length (cap k v : Nat) : (digitsLE cap k v).length = k := by
  induction k generalizing v with
  | zero => rfl
  | succ n ih => simp [digitsLE, ih]

theorem digitsLE_mem_lt (cap k v : Nat) : ∀ x ∈ digitsLE cap k v, x < 2 ^ cap := by
  induction k generalizing v with
  | zero => simp [digitsLE]
  | succ n ih =>
      intro x hx
      simp only [digitsLE, List.mem_cons] at hx
      rcases hx with h | h
      · subst h; exact Nat.mod_lt _ (Nat.pos_pow_of_pos _ (by omega))
      · exact ih _ x h

theorem digitsLE_append (cap a b v : Nat) :
    digitsLE cap (a + b) v = digitsLE cap a v ++ digitsLE cap b (v / 2 ^ (cap * a)) := by
  induction a generalizing v with
  | zero => simp [digitsLE]
  | succ n ih =>
      have : n + 1 + b = (n + b) + 1 := by omega
      rw [this]
      simp only [digitsLE, ih, List.cons_append]
      congr 2
      rw [div_div_pow]
      congr 1
      ring

theorem digitsLE_congr (cap k v w : Nat) (h : v % 2 ^ (cap * k) = w % 2 ^ (cap * k)) :
    digitsLE cap k v = digitsLE cap k w := by
  induction k generalizing v w with
  | zero => rfl
  | succ n ih =>
      have hsplit : cap * (n + 1) = cap + cap * n := by ring
      rw [hsplit] at h
      simp only [digitsLE, List.cons.injEq]
      have h1 : v % 2 ^ cap = w % 2 ^ cap := by
        have hv : v % 2 ^ (cap + cap * n) % 2 ^ cap = v % 2 ^ cap :=
          Nat.mod_mod_of_dvd _ (Nat.pow_dvd_pow 2 (by omega))
        have hw : w % 2 ^ (cap + cap * n) % 2 ^ cap = w % 2 ^ cap :=
          Nat.mod_mod_of_dvd _ (Nat.pow_dvd_pow 2 (by omega))
        rw [← hv, ← hw, h]
      refine ⟨h1, ih _ _ ?_⟩
      have hv := congrArg (fun t => t / 2 ^ cap) h
      simpa only [div_mod_pow] using hv

theorem chunkNum_digitsLE (cap k v : Nat) (h : v < 2 ^ (cap * k)) :
    chunkNum cap (digitsLE cap k v) = v := by
  induction k generalizing v with
  | zero =>
      have hv : v = 0 := by
        simp only [Nat.mul_zero, Nat.pow_zero] at h
        omega
      subst hv
      rfl
  | succ n ih =>
      simp only [digitsLE, chunkNum]
      have hdiv : v / 2 ^ cap < 2 ^ (cap * n) := by
        rw [Nat.div_lt_iff_lt_mul (Nat.pos_pow_of_pos _ (by omega))]
        have hpw : (2:Nat) ^ (cap * n) * 2 ^ cap = 2 ^ (cap * (n + 1)) := by
          rw [Nat.mul_succ, Nat.pow_add]
        omega
      rw [ih _ hdiv]
      exact Nat.mod_add_div' v (2 ^ cap)

/-! ### The packing loops compute base-`2^cap` digits -/

theorem pack_code_bits_spec (cap bit_depth code : Nat) (hcap : 1 ≤ cap)
    (code_done symbol_done symbol_acc : Nat) (hcd : code_done ≤ bit_depth)
    (hsd : symbol_done < cap) (hacc : symbol_acc < 2 ^ symbol_done) :
    pack_code_bits cap bit_depth code code_done symbol_done symbol_acc =
      (digitsLE cap ((symbol_done + (bit_depth - code_done)) / cap)
         (symbol_acc + code / 2 ^ code_done % 2 ^ (bit_depth - code_done) * 2 ^ symbol_done),
       (symbol_done + (bit_depth - code_done)) % cap,
       (symbol_acc + code / 2 ^ code_done % 2 ^ (bit_depth - code_done) * 2 ^ symbol_done) /
         2 ^ (cap * ((symbol_done + (bit_depth - code_done)) / cap))) := by
  rw [pack_code_bits]
  by_cases h : code_done < bit_depth
  · simp only [dif_pos h, dif_pos hsd]
    set b := bit_depth - code_done with hb
    set bits := min (cap - symbol_done) (bit_depth - code_done) with hbits
    have hbits1 : 1 ≤ bits := by omega
    have hbitsb : bits ≤ b := by omega
    have hmask : (code >>> code_done &&& (1 <<< bits) - 1) <<< symbol_done =
        code / 2 ^ code_done % 2 ^ bits * 2 ^ symbol_done := by
      rw [Nat.shiftRight_eq_div_pow, Nat.shiftLeft_eq, Nat.shiftLeft_eq, Nat.one_mul,
        Nat.and_pow_two_sub_one_eq_mod]
    rw [hmask, or_mul_two_pow _ _ _ hacc]
    set m1 := code / 2 ^ code_done % 2 ^ bits with hm1
    set R2 := code / 2 ^ (code_done + bits) % 2 ^ (b - bits) with hR2
    have hsplit : code / 2 ^ code_done % 2 ^ b = m1 + R2 * 2 ^ bits := by
      have h1 : bits + (b - bits) = b := by omega
      have h2 := mod_pow_split (code / 2 ^ code_done) bits (b - bits)
      rw [h1] at h2
      rw [h2, hm1, hR2, div_div_pow]
    have hacc' : symbol_acc + m1 * 2 ^ symbol_done < 2 ^ (symbol_done + bits) :=
      add_bound_two_pow _ _ _ _ hacc (Nat.mod_lt _ (Nat.pos_pow_of_pos _ (by omega)))
    have hW : symbol_acc + code / 2 ^ code_done % 2 ^ b * 2 ^ symbol_done =
        symbol_acc + m1 * 2 ^ symbol_done + R2 * 2 ^ (symbol_done + bits) := by
      rw [hsplit, Nat.pow_add]
      ring
    by_cases hflush : symbol_done + bits = cap
    · simp only [if_pos hflush]
      rw [pack_code_bits_spec cap bit_depth code hcap (code_done + bits) 0 0
        (by omega) (by omega) (by simp)]
      have hb' : bit_depth - (code_done + bits) = b - bits := by omega
      rw [hb', ← hR2]
      simp only [Nat.zero_add, Nat.pow_zero, Nat.mul_one]
      have hT : symbol_done + b = cap + (b - bits) := by omega
      rw [hT]
      have hq : (cap + (b - bits)) / cap = (b - bits) / cap + 1 := by
        rw [Nat.add_comm cap]
        exact Nat.add_div_right _ (by omega)
      have hr : (cap + (b - bits)) % cap = (b - bits) % cap := Nat.add_mod_left _ _
      rw [hq, hr]
      have hWmod : (symbol_acc + code / 2 ^ code_done % 2 ^ b * 2 ^ symbol_done) % 2 ^ cap =
          symbol_acc + m1 * 2 ^ symbol_done := by
        rw [hW, ← hflush, Nat.add_mul_mod_self_right]
        exact Nat.mod_eq_of_lt hacc'
      have hWdiv : (symbol_acc + code / 2 ^ code_done % 2 ^ b * 2 ^ symbol_done) / 2 ^ cap =
          R2 := by
        rw [hW, ← hflush, Nat.add_mul_div_right _ _ (Nat.pos_pow_of_pos _ (by omega)),
          Nat.div_eq_of_lt hacc', Nat.zero_add]
      simp only [Prod.mk.injEq]
      refine ⟨?_, trivial, ?_⟩
      · simp only [digitsLE]
        rw [hWmod, hWdiv]
      · rw [Nat.mul_add, Nat.mul_one, Nat.pow_add,
          Nat.mul_comm (2 ^ (cap * ((b - bits) / cap))) (2 ^ cap),
          ← Nat.div_div_eq_div_mul, hWdiv]
    · simp only [if_neg hflush]
      have hsd' : symbol_done + bits < cap := by omega
      rw [pack_code_bits_spec cap bit_depth code hcap (code_done + bits)
        (symbol_done + bits) (symbol_acc + m1 * 2 ^ symbol_done) (by omega) hsd' hacc']
      have hb' : bit_depth - (code_done + bits) = b - bits := by omega
      rw [hb', ← hR2]
      have hT : symbol_done + bits + (b - bits) = symbol_done + b := by omega
      rw [hT, ← hW]
  · have hb0 : bit_depth - code_done = 0 := by omega
    simp only [dif_neg h, hb0, Nat.add_zero, Nat.pow_zero, Nat.mod_one, Nat.zero_mul,
      Nat.div_eq_of_lt hsd, Nat.mod_eq_of_lt hsd, Nat.mul_zero, Nat.div_one, digitsLE]
termination_by bit_depth - code_done
decreasing_by all_goals omega

theorem add_div_distrib (n a x : Nat) (hn : 0 < n) :
    (a + x) / n = a / n + (a % n + x) / n := by
  conv_lhs => rw [← Nat.div_add_mod a n]
  rw [Nat.add_assoc, Nat.mul_add_div hn]

theorem pack_loop_spec (cap bit_depth : Nat) (hcap : 1 ≤ cap) :
    ∀ (src : List Nat) (symbol_done symbol_acc : Nat), symbol_done < cap →
    symbol_acc < 2 ^ symbol_done →
    pack_loop cap bit_depth src symbol_done symbol_acc =
      digitsLE cap ((symbol_done + bit_depth * src.length + (cap - 1)) / cap)
        (symbol_acc + codeNum bit_depth src * 2 ^ symbol_done) := by
  intro src
  induction src with
  | nil =>
      intro sd acc hsd hacc
      simp only [pack_loop, List.length_nil, Nat.mul_zero, Nat.add_zero, codeNum,
        Nat.zero_mul]
      by_cases h0 : sd = 0
      · subst h0
        have : (cap - 1) / cap = 0 := Nat.div_eq_of_lt (by omega)
        simp [this, digitsLE]
      · simp only [h0, ne_eq, not_false_eq_true, if_true]
        have h1 : (sd + (cap - 1)) / cap = 1 := by
          apply Nat.div_eq_of_lt_le
          · omega
          · omega
        rw [h1]
        simp only [digitsLE]
        have hacap : acc < 2 ^ cap := by
          have : (2:Nat) ^ sd ≤ 2 ^ cap := Nat.pow_le_pow_right (by omega) (by omega)
          omega
        rw [Nat.mod_eq_of_lt hacap]
  | cons c cs ih =>
      intro sd acc hsd hacc
      simp only [pack_loop]
      rw [pack_code_bits_spec cap bit_depth c hcap 0 sd acc (by omega) hsd hacc]
      simp only [Nat.sub_zero, Nat.pow_zero, Nat.div_one]
      set T1 := sd + bit_depth with hT1
      set q1 := T1 / cap with hq1
      set sd1 := T1 % cap with hsd1
      set W1 := acc + c % 2 ^ bit_depth * 2 ^ sd with hW1
      have hsd1cap : sd1 < cap := Nat.mod_lt _ (by omega)
      have hW1lt : W1 < 2 ^ T1 :=
        add_bound_two_pow _ _ _ _ hacc (Nat.mod_lt _ (Nat.pos_pow_of_pos _ (by omega)))
      have hdm : cap * q1 + sd1 = T1 := Nat.div_add_mod T1 cap
      have hacc1 : W1 / 2 ^ (cap * q1) < 2 ^ sd1 := by
        rw [Nat.div_lt_iff_lt_mul (Nat.pos_pow_of_pos _ (by omega)), ← Nat.pow_add]
        have he : sd1 + cap * q1 = T1 := by omega
        rw [he]
        exact hW1lt
      rw [ih sd1 (W1 / 2 ^ (cap * q1)) hsd1cap hacc1]
      have hK : sd + bit_depth * (c :: cs).length + (cap - 1) =
          T1 + (bit_depth * cs.length + (cap - 1)) := by
        simp only [List.length_cons, Nat.mul_add, Nat.mul_one]
        omega
      rw [hK, add_div_distrib cap T1 _ (by omega), ← hq1, ← hsd1]
      have hV : acc + codeNum bit_depth (c :: cs) * 2 ^ sd =
          W1 + codeNum bit_depth cs * 2 ^ T1 := by
        simp only [codeNum, hW1, hT1, Nat.pow_add]
        ring
      rw [hV]
      have hcapq : cap * q1 ≤ T1 := by omega
      have hpow : (2:Nat) ^ T1 = 2 ^ sd1 * 2 ^ (cap * q1) := by
        rw [← Nat.pow_add]
        congr 1
        omega
      rw [digitsLE_append]
      congr 1
      · apply digitsLE_congr
        rw [hpow, ← Nat.mul_assoc, Nat.add_mul_mod_self_right]
      · rw [Nat.add_assoc, hpow, ← Nat.mul_assoc,
          Nat.add_mul_div_right _ _ (Nat.pos_pow_of_pos (cap * q1) (by omega))]

/-! ### The unpacking loops compute `unpackNum` -/

theorem unpack_code_spec (cap bit_depth dead_bits : Nat) (hcap : 1 ≤ cap)
    (rem : List Nat) (ch sd ca cd : Nat)
    (hrem : ∀ x ∈ rem, x < 2 ^ cap) (hch : ch < 2 ^ cap) (hsd : sd < cap)
    (hcd : cd < bit_depth) (hca : ca < 2 ^ cd)
    (hnstop : ¬ (cap - sd = dead_bits ∧ cd = 0 ∧ rem = [])) :
    (if cap - sd + cap * rem.length ≤ bit_depth - cd then
      ∃ rem2 ch2 sd2 cd2,
        unpack_code cap bit_depth dead_bits rem ch sd ca cd =
          (rem2, ch2, sd2, ca + (ch / 2 ^ sd + chunkNum cap rem * 2 ^ (cap - sd)) * 2 ^ cd,
            cd2, true) ∧ 0 < cd2
    else
      ∃ rem2 ch2 sd2,
        unpack_code cap bit_depth dead_bits rem ch sd ca cd =
          (rem2, ch2, sd2,
            ca + (ch / 2 ^ sd + chunkNum cap rem * 2 ^ (cap - sd)) % 2 ^ (bit_depth - cd) *
              2 ^ cd, bit_depth, false) ∧
          (∀ x ∈ rem2, x < 2 ^ cap) ∧ ch2 < 2 ^ cap ∧ sd2 < cap ∧
          cap - sd2 + cap * rem2.length = cap - sd + cap * rem.length - (bit_depth - cd) ∧
          ch2 / 2 ^ sd2 + chunkNum cap rem2 * 2 ^ (cap - sd2) =
            (ch / 2 ^ sd + chunkNum cap rem * 2 ^ (cap - sd)) / 2 ^ (bit_depth - cd)) := by
  rw [unpack_code, dif_pos hcd, if_neg hnstop, dif_pos hsd]
  simp only []
  set bits := min (cap - sd) (bit_depth - cd) with hbits
  have hbits1 : 1 ≤ bits := by omega
  have hdata : (ch >>> sd &&& 1 <<< bits - 1) <<< cd = ch / 2 ^ sd % 2 ^ bits * 2 ^ cd := by
    rw [Nat.shiftRight_eq_div_pow, Nat.shiftLeft_eq, Nat.shiftLeft_eq, Nat.one_mul,
      Nat.and_pow_two_sub_one_eq_mod]
  rw [hdata, or_mul_two_pow _ _ _ hca]
  set m1 := ch / 2 ^ sd % 2 ^ bits with hm1
  set Mnext := ch / 2 ^ (sd + bits) + chunkNum cap rem * 2 ^ (cap - sd - bits) with hMnext
  have hpow2pos : ∀ t : Nat, (0:Nat) < 2 ^ t := fun t => Nat.pos_pow_of_pos _ (by omega)
  have hm1lt : m1 < 2 ^ bits := Nat.mod_lt _ (hpow2pos _)
  have hchdiv : ch / 2 ^ sd < 2 ^ (cap - sd) := by
    rw [Nat.div_lt_iff_lt_mul (hpow2pos _), ← Nat.pow_add]
    have he : cap - sd + sd = cap := by omega
    rw [he]
    exact hch
  have hMsplit : ch / 2 ^ sd + chunkNum cap rem * 2 ^ (cap - sd) = m1 + Mnext * 2 ^ bits := by
    have e1 : ch / 2 ^ sd = m1 + ch / 2 ^ (sd + bits) * 2 ^ bits := by
      rw [hm1, ← div_div_pow]
      exact (Nat.mod_add_div' (ch / 2 ^ sd) (2 ^ bits)).symm
    have e2 : (2:Nat) ^ (cap - sd) = 2 ^ bits * 2 ^ (cap - sd - bits) := by
      rw [← Nat.pow_add]
      congr 1
      omega
    rw [hMnext]
    conv_lhs => rw [e1, e2]
    ring
  have hMmod : (ch / 2 ^ sd + chunkNum cap rem * 2 ^ (cap - sd)) % 2 ^ bits = m1 := by
    rw [hMsplit, Nat.add_mul_mod_self_right, Nat.mod_eq_of_lt hm1lt]
  have hMdiv : (ch / 2 ^ sd + chunkNum cap rem * 2 ^ (cap - sd)) / 2 ^ bits = Mnext := by
    rw [hMsplit, Nat.add_mul_div_right _ _ (hpow2pos _), Nat.div_eq_of_lt hm1lt, Nat.zero_add]
  have hvex : ca + m1 * 2 ^ cd + Mnext * 2 ^ (cd + bits) =
      ca + (ch / 2 ^ sd + chunkNum cap rem * 2 ^ (cap - sd)) * 2 ^ cd := by
    rw [hMsplit, Nat.pow_add]
    ring
  have hvstep : ca + m1 * 2 ^ cd + Mnext % 2 ^ (bit_depth - (cd + bits)) * 2 ^ (cd + bits) =
      ca + (ch / 2 ^ sd + chunkNum cap rem * 2 ^ (cap - sd)) % 2 ^ (bit_depth - cd) *
        2 ^ cd := by
    have hms := mod_pow_split (ch / 2 ^ sd + chunkNum cap rem * 2 ^ (cap - sd)) bits
      (bit_depth - cd - bits)
    have he : bits + (bit_depth - cd - bits) = bit_depth - cd := by omega
    rw [he] at hms
    rw [hms, hMmod, hMdiv]
    have he2 : bit_depth - (cd + bits) = bit_depth - cd - bits := by omega
    rw [he2, Nat.pow_add]
    ring
  have hvtail : ∀ X : Nat, X = Mnext / 2 ^ (bit_depth - (cd + bits)) →
      X = (ch / 2 ^ sd + chunkNum cap rem * 2 ^ (cap - sd)) / 2 ^ (bit_depth - cd) := by
    intro X hX
    have he3 : bit_depth - cd = bits + (bit_depth - (cd + bits)) := by omega
    rw [hX, he3, ← div_div_pow, hMdiv]
  by_cases hflush : sd + bits = cap
  · rw [if_pos hflush]
    cases rem with
    | nil =>
        have hbeq : bits = cap - sd := by omega
        have hm1c : m1 = ch / 2 ^ sd := by
          rw [hm1, Nat.mod_eq_of_lt (hbeq ▸ hchdiv)]
        simp only [chunkNum, List.length_nil, Nat.mul_zero, Nat.add_zero, Nat.zero_mul]
        rw [if_pos (by omega : cap - sd ≤ bit_depth - cd)]
        exact ⟨[], ch, sd + bits, cd + bits, by rw [hm1c], by omega⟩
    | cons c rest =>
        simp only []
        have hc : c < 2 ^ cap := hrem c (List.mem_cons_self c rest)
        have hrest : ∀ x ∈ rest, x < 2 ^ cap := fun x hx =>
          hrem x (List.mem_cons_of_mem _ hx)
        have hMnext0 : Mnext = c + chunkNum cap rest * 2 ^ cap := by
          rw [hMnext, hflush]
          have h0 : cap - sd - bits = 0 := by omega
          rw [h0, Nat.div_eq_of_lt hch, Nat.pow_zero, Nat.mul_one, Nat.zero_add]
          rfl
        have hRrel : cap - sd + cap * (c :: rest).length =
            bits + (cap + cap * rest.length) := by
          rw [List.length_cons, Nat.mul_succ]
          omega
        by_cases hlt : cd + bits < bit_depth
        · have hspec := unpack_code_spec cap bit_depth dead_bits hcap rest c 0
            (ca + m1 * 2 ^ cd) (cd + bits) hrest hc (by omega) hlt
            (add_bound_two_pow _ _ _ _ hca hm1lt) (by
              rintro ⟨-, h2, -⟩
              omega)
          simp only [Nat.sub_zero, Nat.pow_zero, Nat.div_one] at hspec
          rw [← hMnext0] at hspec
          by_cases hex : cap - sd + cap * (c :: rest).length ≤ bit_depth - cd
          · rw [if_pos hex]
            rw [if_pos (by omega : cap + cap * rest.length ≤ bit_depth - (cd + bits))] at hspec
            obtain ⟨rem2, ch2, sd2, cd2, heq, hcd2⟩ := hspec
            exact ⟨rem2, ch2, sd2, cd2, by rw [heq, hvex], hcd2⟩
          · rw [if_neg hex]
            rw [if_neg (by omega : ¬ cap + cap * rest.length ≤
              bit_depth - (cd + bits))] at hspec
            obtain ⟨rem2, ch2, sd2, heq, hr2, hc2, hs2, hcount, hval⟩ := hspec
            refine ⟨rem2, ch2, sd2, by rw [heq, hvstep], hr2, hc2, hs2, by
              rw [hcount]
              omega, hvtail _ hval⟩
        · have hcdb : cd + bits = bit_depth := by omega
          rw [if_neg (by omega : ¬ cap - sd + cap * (c :: rest).length ≤ bit_depth - cd)]
          have hcallee : unpack_code cap bit_depth dead_bits rest c 0
              (ca + m1 * 2 ^ cd) (cd + bits) =
              (rest, c, 0, ca + m1 * 2 ^ cd, cd + bits, false) := by
            rw [unpack_code, dif_neg (by omega)]
          rw [hcallee]
          have hbb : bits = bit_depth - cd := by omega
          refine ⟨rest, c, 0, ?_, hrest, hc, by omega, ?_, ?_⟩
          · rw [← hbb, hMmod, hcdb]
          · rw [List.length_cons, Nat.mul_succ]
            omega
          · apply hvtail
            rw [hMnext0, hcdb]
            have h0 : bit_depth - bit_depth = 0 := by omega
            rw [h0, Nat.pow_zero, Nat.div_one]
            simp [Nat.sub_zero]
  · rw [if_neg hflush]
    have hsd' : sd + bits < cap := by omega
    have hsub : cap - (sd + bits) = cap - sd - bits := by omega
    by_cases hlt : cd + bits < bit_depth
    · have hspec := unpack_code_spec cap bit_depth dead_bits hcap rem ch
        (sd + bits) (ca + m1 * 2 ^ cd) (cd + bits) hrem hch hsd' hlt
        (add_bound_two_pow _ _ _ _ hca hm1lt) (by
          rintro ⟨-, h2, -⟩
          omega)
      rw [hsub, ← hMnext] at hspec
      by_cases hex : cap - sd + cap * rem.length ≤ bit_depth - cd
      · rw [if_pos hex]
        rw [if_pos (by omega : cap - sd - bits + cap * rem.length ≤
          bit_depth - (cd + bits))] at hspec
        obtain ⟨rem2, ch2, sd2, cd2, heq, hcd2⟩ := hspec
        exact ⟨rem2, ch2, sd2, cd2, by rw [heq, hvex], hcd2⟩
      · rw [if_neg hex]
        rw [if_neg (by omega : ¬ cap - sd - bits + cap * rem.length ≤
          bit_depth - (cd + bits))] at hspec
        obtain ⟨rem2, ch2, sd2, heq, hr2, hc2, hs2, hcount, hval⟩ := hspec
        refine ⟨rem2, ch2, sd2, by rw [heq, hvstep], hr2, hc2, hs2, by
          rw [hcount]
          omega, hvtail _ hval⟩
    · have hcdb : cd + bits = bit_depth := by omega
      rw [if_neg (by omega : ¬ cap - sd + cap * rem.length ≤ bit_depth - cd)]
      have hcallee : unpack_code cap bit_depth dead_bits rem ch (sd + bits)
          (ca + m1 * 2 ^ cd) (cd + bits) =
          (rem, ch, sd + bits, ca + m1 * 2 ^ cd, cd + bits, false) := by
        rw [unpack_code, dif_neg (by omega)]
      rw [hcallee]
      have hbb : bits = bit_depth - cd := by omega
      refine ⟨rem, ch, sd + bits, ?_, hrem, hch, hsd', by omega, ?_⟩
      · rw [← hbb, hMmod, hcdb]
      · apply hvtail
        rw [hMnext, hsub, hcdb]
        have h0 : bit_depth - bit_depth = 0 := by omega
        rw [h0, Nat.pow_zero, Nat.div_one]
termination_by bit_depth - cd
decreasing_by all_goals omega

theorem unpack_loop_spec (cap bit_depth dead_bits : Nat) (hcap : 1 ≤ cap)
    (hdepth : 1 ≤ bit_depth) (hdead : dead_bits < cap) :
    ∀ (budget : Nat) (rem : List Nat) (ch sd : Nat),
    (∀ x ∈ rem, x < 2 ^ cap) → ch < 2 ^ cap → sd < cap →
    cap - sd + cap * rem.length + 1 ≤ budget →
    unpack_loop budget cap bit_depth dead_bits rem ch sd =
      unpackNum bit_depth dead_bits (cap - sd + cap * rem.length)
        (ch / 2 ^ sd + chunkNum cap rem * 2 ^ (cap - sd)) := by
  intro budget
  induction budget with
  | zero =>
      intro rem ch sd _ _ _ hb
      omega
  | succ n ih =>
      intro rem ch sd hrem hch hsd hb
      rw [unpack_loop]
      by_cases hstop : cap - sd = dead_bits ∧ rem = []
      · obtain ⟨h1, h2⟩ := hstop
        subst h2
        have hcode : unpack_code cap bit_depth dead_bits [] ch sd 0 0 =
            ([], ch, sd, 0, 0, true) := by
          rw [unpack_code, dif_pos (by omega : 0 < bit_depth), if_pos ⟨h1, rfl, rfl⟩]
        rw [hcode]
        simp only [List.length_nil, Nat.mul_zero, Nat.add_zero]
        rw [unpackNum, if_neg (by omega : ¬ bit_depth = 0), if_pos h1]
        simp
      · have hRnd : ¬ (cap - sd + cap * rem.length = dead_bits) := by
          intro h
          cases rem with
          | nil => exact hstop ⟨by simpa using h, rfl⟩
          | cons c rest =>
              rw [List.length_cons, Nat.mul_succ] at h
              omega
        have hspec := unpack_code_spec cap bit_depth dead_bits hcap rem ch sd 0 0
          hrem hch hsd (by omega) (by simp) (by
            rintro ⟨a, -, b⟩
            exact hstop ⟨a, b⟩)
        simp only [Nat.pow_zero, Nat.mul_one, Nat.zero_add, Nat.sub_zero] at hspec
        by_cases hex : cap - sd + cap * rem.length ≤ bit_depth
        · rw [if_pos hex] at hspec
          obtain ⟨rem2, ch2, sd2, cd2, heq, hcd2⟩ := hspec
          rw [heq]
          conv_rhs => rw [unpackNum]
          rw [if_neg (by omega : ¬ bit_depth = 0), if_neg hRnd, if_pos hex]
          simp [hcd2]
        · rw [if_neg hex] at hspec
          obtain ⟨rem2, ch2, sd2, heq, hr2, hc2, hs2, hcount, hval⟩ := hspec
          rw [heq]
          have hloop := ih rem2 ch2 sd2 hr2 hc2 hs2 (by
            rw [hcount]
            omega)
          rw [hcount, hval] at hloop
          conv_rhs => rw [unpackNum]
          rw [if_neg (by omega : ¬ bit_depth = 0), if_neg hRnd, if_neg hex]
          have hpos : 0 < bit_depth := hdepth
          simp [hloop, hpos]

/-! ### Alphabet lemmas -/

theorem symbol_by_index_total (D : List symbol_range) :
    ∀ i, i < pw_length D → ∃ s, symbol_by_index D i = some s := by
  induction D with
  | nil =>
      intro i h
      simp [pw_length] at h
  | cons r rs ih =>
      intro i h
      by_cases hlt : i < r.rlen
      · exact ⟨r.lower + i, by simp [symbol_by_index, hlt]⟩
      · have hrec := ih (i - r.rlen) (by
          simp only [pw_length] at h
          omega)
        obtain ⟨s, hs⟩ := hrec
        exact ⟨s, by simp [symbol_by_index, hlt, hs]⟩

theorem wf_symbol_index (D : List symbol_range) (hwf : wf_ranges D = true) :
    ∀ i, i < pw_length D →
    ∃ s, symbol_by_index D i = some s ∧ index_of_symbol D s = some i ∧
      ∃ r ∈ D, r.lower ≤ s ∧ s ≤ r.upper := by
  induction D with
  | nil =>
      intro i h
      simp [pw_length] at h
  | cons r rs ih =>
      intro i h
      simp only [wf_ranges, Bool.and_eq_true, decide_eq_true_eq, List.all_eq_true,
        Bool.or_eq_true] at hwf
      obtain ⟨⟨hlu, hdisj⟩, hwfrs⟩ := hwf
      by_cases hlt : i < r.rlen
      · have hlt' : i < r.upper - r.lower + 1 := hlt
        have hup : r.lower + i ≤ r.upper := by omega
        have hcond : r.lower ≤ r.lower + i ∧ r.lower + i ≤ r.upper :=
          ⟨Nat.le_add_right _ _, hup⟩
        refine ⟨r.lower + i, by simp [symbol_by_index, hlt], ?_,
          r, List.mem_cons_self r rs, Nat.le_add_right _ _, hup⟩
        simp only [index_of_symbol, if_pos hcond]
        congr 1
        omega
      · have hrec := ih hwfrs (i - r.rlen) (by
          simp only [pw_length] at h
          omega)
        obtain ⟨s, hs1, hs2, r', hr', hl', hu'⟩ := hrec
        have hout : ¬ (r.lower ≤ s ∧ s ≤ r.upper) := by
          have hd := hdisj r' hr'
          rcases hd with hcase | hcase <;> omega
        refine ⟨s, by simp [symbol_by_index, hlt, hs1], ?_,
          r', List.mem_cons_of_mem _ hr', hl', hu'⟩
        simp only [index_of_symbol, if_neg hout, hs2, Option.map_some']
        have hge : r.rlen ≤ i := Nat.le_of_not_lt hlt
        congr 1
        omega

theorem sym_at_eq (D : List symbol_range) (i s : Nat)
    (h : symbol_by_index D i = some s) : sym_at D i = s := by
  simp [sym_at, h]

theorem wf_ios_sym_at (D : List symbol_range) (hwf : wf_ranges D = true)
    (i : Nat) (hi : i < pw_length D) : index_of_symbol D (sym_at D i) = some i := by
  obtain ⟨s, hs1, hs2, -⟩ := wf_symbol_index D hwf i hi
  rw [sym_at_eq D i s hs1]
  exact hs2

theorem mapExcept_sbi (P : List symbol_range) :
    ∀ l : List Nat, (∀ i ∈ l, i < pw_length P) →
    mapExcept (sbi P) l = .ok (l.map (sym_at P)) := by
  intro l
  induction l with
  | nil => intro _; rfl
  | cons a as ih =>
      intro h
      obtain ⟨s, hs⟩ := symbol_by_index_total P a (h a (List.mem_cons_self a as))
      rw [List.map_cons, sym_at_eq P a s hs]
      simp only [mapExcept, sbi, hs, ih (fun i hi => h i (List.mem_cons_of_mem _ hi))]
      rfl

theorem mapExcept_ios (P : List symbol_range) (hwf : wf_ranges P = true) :
    ∀ l : List Nat, (∀ i ∈ l, i < pw_length P) →
    mapExcept (ios P) (l.map (sym_at P)) = .ok l := by
  intro l
  induction l with
  | nil => intro _; rfl
  | cons a as ih =>
      intro h
      have hio := wf_ios_sym_at P hwf a (h a (List.mem_cons_self a as))
      simp only [List.map_cons, mapExcept, ios, hio,
        ih (fun i hi => h i (List.mem_cons_of_mem _ hi))]
      rfl

theorem log2_floor_pos (n : Nat) (h : 2 ≤ n) : 1 ≤ log2_floor n := by
  rw [log2_floor]
  simp only [if_neg (by omega : ¬ n ≤ 1)]
  omega

theorem bit_capacity_pos (P : List symbol_range) (h : 2 ≤ pw_length P) :
    1 ≤ bit_capacity P := log2_floor_pos _ h

theorem two_pow_bit_capacity_le (P : List symbol_range) (h : 1 ≤ pw_length P) :
    2 ^ bit_capacity P ≤ pw_length P := two_pow_log2_floor_le _ h

theorem bit_capacity_lt_pw (P : List symbol_range) (h : 2 ≤ pw_length P) :
    bit_capacity P < pw_length P := by
  have h1 := two_pow_bit_capacity_le P (by omega)
  have h2 := Nat.lt_two_pow (bit_capacity P)
  omega

/-! ### Dead-bit arithmetic and the full round trip of `pack_bits`/`unpack_bits` -/

theorem pack_sym_count (cap bits : Nat) (hcap : 1 ≤ cap) (hbits : 1 ≤ bits) :
    ((bits - 1) / cap + 1) * cap = bits + pack_dead_bits cap bits ∧
      pack_dead_bits cap bits < cap := by
  have hdm := Nat.div_add_mod (bits - 1) cap
  have hr := Nat.mod_lt (bits - 1) (show 0 < cap by omega)
  have hq : ((bits - 1) / cap + 1) * cap = cap * ((bits - 1) / cap) + cap := by ring
  rw [pack_dead_bits]
  omega

theorem codeNum_lt (bit_depth : Nat) :
    ∀ codes : List Nat, codeNum bit_depth codes < 2 ^ (bit_depth * codes.length) := by
  intro codes
  induction codes with
  | nil => simp [codeNum]
  | cons c cs ih =>
      simp only [codeNum, List.length_cons]
      have h := add_bound_two_pow bit_depth (bit_depth * cs.length) (c % 2 ^ bit_depth)
        (codeNum bit_depth cs) (Nat.mod_lt _ (Nat.pos_pow_of_pos _ (by omega))) ih
      have he : bit_depth + bit_depth * cs.length = bit_depth * (cs.length + 1) := by ring
      rw [he] at h
      exact h

theorem unpackNum_codeNum (bit_depth dead_bits : Nat) (hd : 1 ≤ bit_depth) :
    ∀ codes : List Nat, codes ≠ [] → (∀ c ∈ codes, c < 2 ^ bit_depth) →
    unpackNum bit_depth dead_bits (bit_depth * codes.length + dead_bits)
      (codeNum bit_depth codes) = codes := by
  intro codes
  induction codes with
  | nil =>
      intro h
      exact absurd rfl h
  | cons c cs ih =>
      intro _ hlt
      have hpos : (0:Nat) < 2 ^ bit_depth := Nat.pos_pow_of_pos _ (by omega)
      have hc : c % 2 ^ bit_depth = c := Nat.mod_eq_of_lt (hlt c (List.mem_cons_self c cs))
      have hCmod : codeNum bit_depth (c :: cs) % 2 ^ bit_depth = c := by
        simp only [codeNum]
        rw [Nat.add_mul_mod_self_right, Nat.mod_mod_of_dvd c (dvd_refl _), hc]
      have hCdiv : codeNum bit_depth (c :: cs) / 2 ^ bit_depth = codeNum bit_depth cs := by
        simp only [codeNum]
        rw [Nat.add_mul_div_right _ _ hpos,
          Nat.div_eq_of_lt (Nat.mod_lt _ hpos), Nat.zero_add]
      simp only [List.length_cons, Nat.mul_succ]
      rw [unpackNum, if_neg (by omega : ¬ bit_depth = 0),
        if_neg (by omega : ¬ bit_depth * cs.length + bit_depth + dead_bits = dead_bits)]
      cases cs with
      | nil =>
          simp only [List.length_nil, Nat.mul_zero, Nat.zero_add]
          by_cases hd0 : dead_bits = 0
          · subst hd0
            rw [if_pos (by omega : bit_depth + 0 ≤ bit_depth)]
            simp only [codeNum, Nat.mul_zero, Nat.zero_mul, Nat.add_zero, hc]
          · rw [if_neg (by omega : ¬ bit_depth + dead_bits ≤ bit_depth), hCmod, hCdiv]
            rw [unpackNum, if_neg (by omega : ¬ bit_depth = 0),
              if_pos (by omega : bit_depth + dead_bits - bit_depth = dead_bits)]
      | cons c2 cs2 =>
          rw [if_neg (by
            simp only [List.length_cons, Nat.mul_succ]
            omega : ¬ bit_depth * (c2 :: cs2).length + bit_depth + dead_bits ≤ bit_depth)]
          rw [hCmod, hCdiv]
          have hih := ih (by simp) (fun x hx => hlt x (List.mem_cons_of_mem _ hx))
          have heq : bit_depth * (c2 :: cs2).length + bit_depth + dead_bits - bit_depth =
              bit_depth * (c2 :: cs2).length + dead_bits := by omega
          rw [heq, hih]

theorem pack_bits_ok (P : List symbol_range) (src : List Nat) (bit_depth : Nat)
    (hd1 : 1 ≤ bit_depth) (hdP : bit_depth < pw_length P) (hsrc : src ≠ []) :
    pack_bits P src bit_depth =
      .ok (sym_at P bit_depth ::
        sym_at P (pack_dead_bits (bit_capacity P) (bit_depth * src.length)) ::
        (digitsLE (bit_capacity P)
          ((bit_depth * src.length + (bit_capacity P - 1)) / bit_capacity P)
          (codeNum bit_depth src)).map (sym_at P)) := by
  have hpw2 : 2 ≤ pw_length P := by omega
  have hcap : 1 ≤ bit_capacity P := bit_capacity_pos P hpw2
  have hbits : 1 ≤ bit_depth * src.length := by
    have : src.length ≠ 0 := fun h => hsrc (List.length_eq_zero.mp h)
    have h2 : 1 ≤ src.length := by omega
    calc 1 = 1 * 1 := rfl
    _ ≤ bit_depth * src.length := Nat.mul_le_mul hd1 h2
  have hdeadlt : pack_dead_bits (bit_capacity P) (bit_depth * src.length) <
      bit_capacity P := (pack_sym_count _ _ hcap hbits).2
  obtain ⟨s1, hs1⟩ := symbol_by_index_total P bit_depth hdP
  obtain ⟨s2, hs2⟩ := symbol_by_index_total P
    (pack_dead_bits (bit_capacity P) (bit_depth * src.length)) (by
      have := bit_capacity_lt_pw P hpw2
      omega)
  have hloop := pack_loop_spec (bit_capacity P) bit_depth hcap src 0 0 (by omega) (by simp)
  simp only [Nat.zero_add, Nat.pow_zero, Nat.mul_one] at hloop
  have hmem : ∀ i ∈ digitsLE (bit_capacity P)
      ((bit_depth * src.length + (bit_capacity P - 1)) / bit_capacity P)
      (codeNum bit_depth src), i < pw_length P := by
    intro i hi
    have h1 := digitsLE_mem_lt (bit_capacity P) _ _ i hi
    have h2 := two_pow_bit_capacity_le P (by omega)
    omega
  rw [pack_bits]
  simp only [sbi, hs1, hs2, hloop, mapExcept_sbi P _ hmem]
  rw [sym_at_eq P _ _ hs1, sym_at_eq P _ _ hs2]
  rfl

theorem unpack_bits_cons (P : List symbol_range) (s0 s1 s2 : Nat) (rest : List Nat)
    (d b c : Nat) (cs : List Nat)
    (h0 : ios P s0 = .ok d) (h1 : ios P s1 = .ok b) (h2 : ios P s2 = .ok c)
    (h3 : mapExcept (ios P) rest = .ok cs) :
    unpack_bits P (s0 :: s1 :: s2 :: rest) =
      .ok (unpack_loop (bit_capacity P * (cs.length + 1) + 1) (bit_capacity P)
        d b cs c 0) := by
  rw [unpack_bits, h0, h1, h2, h3]
  rfl

theorem unpack_bits_pack_bits (P : List symbol_range) (src : List Nat) (bit_depth : Nat)
    (hwf : wf_ranges P = true) (hd1 : 1 ≤ bit_depth) (hdP : bit_depth < pw_length P)
    (hsrc : src ≠ []) (hvals : ∀ c ∈ src, c < 2 ^ bit_depth) :
    ∃ packed, pack_bits P src bit_depth = .ok packed ∧
      unpack_bits P packed = .ok src := by
  have hpw2 : 2 ≤ pw_length P := by omega
  have hcap : 1 ≤ bit_capacity P := bit_capacity_pos P hpw2
  have hbits : 1 ≤ bit_depth * src.length := by
    have : src.length ≠ 0 := fun h => hsrc (List.length_eq_zero.mp h)
    have h2 : 1 ≤ src.length := by omega
    calc 1 = 1 * 1 := rfl
    _ ≤ bit_depth * src.length := Nat.mul_le_mul hd1 h2
  set cap := bit_capacity P with hcapdef
  set bits := bit_depth * src.length with hbitsdef
  set dead := pack_dead_bits cap bits with hdeaddef
  set K := (bits + (cap - 1)) / cap with hKdef
  obtain ⟨hcount, hdeadlt⟩ := pack_sym_count cap bits hcap hbits
  have hKeq : K = (bits - 1) / cap + 1 := by
    rw [hKdef]
    have h1 : bits + (cap - 1) = bits - 1 + cap := by omega
    rw [h1, Nat.add_div_right _ (by omega)]
  have hKcap : K * cap = bits + dead := by
    rw [hKeq]
    exact hcount
  have hK1 : 1 ≤ K := by
    rw [hKeq]
    exact Nat.succ_le_succ (Nat.zero_le _)
  have hVlt : codeNum bit_depth src < 2 ^ (cap * K) := by
    have h1 := codeNum_lt bit_depth src
    rw [← hbitsdef] at h1
    have h2 : bits ≤ cap * K := by
      rw [Nat.mul_comm]
      omega
    have h3 : (2:Nat) ^ bits ≤ 2 ^ (cap * K) := Nat.pow_le_pow_right (by omega) h2
    omega
  have hpack := pack_bits_ok P src bit_depth hd1 hdP hsrc
  rw [← hcapdef, ← hbitsdef, ← hdeaddef, ← hKdef] at hpack
  refine ⟨_, hpack, ?_⟩
  set payload := digitsLE cap K (codeNum bit_depth src) with hpayload
  have hplen : payload.length = K := digitsLE_length _ _ _
  have hpmem : ∀ i ∈ payload, i < 2 ^ cap := digitsLE_mem_lt _ _ _
  have hpmemP : ∀ i ∈ payload, i < pw_length P := by
    intro i hi
    have h2 := two_pow_bit_capacity_le P (by omega)
    rw [← hcapdef] at h2
    have := hpmem i hi
    omega
  cases hpay : payload with
  | nil =>
      rw [hpay] at hplen
      simp at hplen
      omega
  | cons p0 prest =>
      rw [hpay] at hplen hpmem hpmemP
      have hp0 : p0 < 2 ^ cap := hpmem p0 (List.mem_cons_self _ _)
      have hprest : ∀ i ∈ prest, i < 2 ^ cap := fun i hi =>
        hpmem i (List.mem_cons_of_mem _ hi)
      have hprestP : ∀ i ∈ prest, i < pw_length P := fun i hi =>
        hpmemP i (List.mem_cons_of_mem _ hi)
      rw [hpay] at hpayload
      rw [show (p0 :: prest).map (sym_at P) =
        sym_at P p0 :: prest.map (sym_at P) from rfl]
      have hio1 : ios P (sym_at P bit_depth) = .ok bit_depth := by
        simp [ios, wf_ios_sym_at P hwf bit_depth hdP]
      have hio2 : ios P (sym_at P dead) = .ok dead := by
        have := bit_capacity_lt_pw P hpw2
        simp [ios, wf_ios_sym_at P hwf dead (by omega)]
      have hio3 : ios P (sym_at P p0) = .ok p0 := by
        simp [ios, wf_ios_sym_at P hwf p0 (hpmemP p0 (List.mem_cons_self _ _))]
      rw [unpack_bits_cons P _ _ _ _ _ _ _ _ hio1 hio2 hio3
        (mapExcept_ios P hwf prest hprestP)]
      rw [← hcapdef]
      have hloop := unpack_loop_spec cap bit_depth dead hcap hd1 hdeadlt
        (cap * (prest.length + 1) + 1) prest p0 0 hprest hp0 (by omega) (by
          rw [Nat.mul_succ]
          omega)
      simp only [Nat.sub_zero, Nat.pow_zero, Nat.div_one] at hloop
      rw [hloop]
      have hR : cap + cap * prest.length = bits + dead := by
        have hlen2 : prest.length + 1 = K := by
          simpa using hplen
        rw [← hKcap, ← hlen2, Nat.succ_mul, Nat.mul_comm prest.length cap]
        omega
      have hM : p0 + chunkNum cap prest * 2 ^ cap = codeNum bit_depth src := by
        have := chunkNum_digitsLE cap K (codeNum bit_depth src) hVlt
        rw [← hpayload] at this
        simpa [chunkNum] using this
      rw [hR, hM]
      have hfin := unpackNum_codeNum bit_depth dead hd1 src hsrc hvals
      rw [← hbitsdef] at hfin
      rw [hfin]

/-! ### Dictionary views: `decode_dict`, `dict_pairs` and `std::map` lookups -/

theorem symbol_by_index_lt_length (D : List symbol_range) :
    ∀ i s, symbol_by_index D i = some s → i < pw_length D := by
  induction D with
  | nil =>
      intro i s h
      simp [symbol_by_index] at h
  | cons r rs ih =>
      intro i s h
      simp only [symbol_by_index] at h
      simp only [pw_length]
      by_cases hlt : i < r.rlen
      · omega
      · rw [if_neg hlt] at h
        have := ih _ _ h
        omega

theorem symbol_by_index_of_index (D : List symbol_range) :
    ∀ s i, index_of_symbol D s = some i → symbol_by_index D i = some s := by
  induction D with
  | nil =>
      intro s i h
      simp [index_of_symbol] at h
  | cons r rs ih =>
      intro s i h
      simp only [index_of_symbol] at h
      by_cases hin : r.lower ≤ s ∧ s ≤ r.upper
      · rw [if_pos hin] at h
        have hi : i = s - r.lower := by
          have := Option.some.inj h
          omega
        subst hi
        have hlt : s - r.lower < r.rlen := by
          simp only [symbol_range.rlen]
          omega
        simp only [symbol_by_index, if_pos hlt]
        congr 1
        omega
      · rw [if_neg hin] at h
        cases hrec : index_of_symbol rs s with
        | none => rw [hrec] at h; simp at h
        | some j =>
            rw [hrec] at h
            simp only [Option.map_some'] at h
            have hi : i = r.rlen + j := (Option.some.inj h).symm
            subst hi
            have hnlt : ¬ r.rlen + j < r.rlen := by omega
            simp only [symbol_by_index, if_neg hnlt]
            rw [show r.rlen + j - r.rlen = j by omega]
            exact ih _ _ hrec

theorem decode_dict_length (D : List symbol_range) :
    (decode_dict D).length = pw_length D := by
  simp [decode_dict]

theorem decode_dict_getD (D : List symbol_range) (c : Nat) (hc : c < pw_length D) :
    (decode_dict D).getD c [] = [sym_at D c] := by
  rw [decode_dict, List.getD_eq_getElem _ _ (by simpa using hc)]
  simp

theorem decode_dict_ne_nil (D : List symbol_range) :
    ∀ p ∈ decode_dict D, p ≠ [] := by
  intro p hp
  simp only [decode_dict, List.mem_map] at hp
  obtain ⟨c, -, rfl⟩ := hp
  simp

theorem decode_dict_nodup (D : List symbol_range) (hwf : wf_ranges D = true) :
    (decode_dict D).Nodup := by
  rw [decode_dict]
  refine List.Nodup.map_on ?_ (List.nodup_range _)
  intro i hi j hj h
  have hi' := List.mem_range.mp hi
  have hj' := List.mem_range.mp hj
  have h1 := wf_ios_sym_at D hwf i hi'
  have h2 := wf_ios_sym_at D hwf j hj'
  have hs : sym_at D i = sym_at D j := by
    have := List.cons.inj h
    exact this.1
  rw [hs, h2] at h1
  exact (Option.some.inj h1).symm

theorem singleton_mem_decode_dict (D : List symbol_range) (s i : Nat)
    (h : index_of_symbol D s = some i) : [s] ∈ decode_dict D := by
  have hsb := symbol_by_index_of_index D s i h
  have hlt := symbol_by_index_lt_length D i s hsb
  simp only [decode_dict, List.mem_map]
  exact ⟨i, List.mem_range.mpr hlt, by rw [sym_at_eq D i s hsb]⟩

theorem dict_pairs_length (l : List (List Nat)) :
    (dict_pairs l).length = l.length := by
  simp [dict_pairs]

theorem dict_pairs_concat (l : List (List Nat)) (p : List Nat) :
    dict_pairs (l ++ [p]) = dict_pairs l ++ [(p, l.length)] := by
  simp [dict_pairs, List.enum_append, List.enumFrom_cons]

theorem lookup_enumFrom (p : List Nat) :
    ∀ (l : List (List Nat)) (n : Nat),
    ((List.enumFrom n l).map (fun q => (q.2, q.1))).lookup p =
      if p ∈ l then some (n + phrase_index p l) else none := by
  intro l
  induction l with
  | nil =>
      intro n
      simp
  | cons a t ih =>
      intro n
      rw [List.enumFrom_cons]
      by_cases hpa : p = a
      · subst hpa
        simp [List.lookup_cons, phrase_index]
      · have hba : (p == a) = false := beq_false_of_ne hpa
        simp only [List.map_cons, List.lookup_cons, hba, ih (n + 1)]
        rw [phrase_index, if_neg hpa]
        by_cases hmem : p ∈ t
        · rw [if_pos hmem, if_pos (List.mem_cons_of_mem _ hmem)]
          congr 1
          omega
        · rw [if_neg hmem, if_neg (by
            intro hc
            rcases List.mem_cons.mp hc with hc | hc
            · exact hpa hc
            · exact hmem hc)]

theorem lookup_dict_pairs (l : List (List Nat)) (p : List Nat) :
    (dict_pairs l).lookup p = if p ∈ l then some (phrase_index p l) else none := by
  have h := lookup_enumFrom p l 0
  rw [← List.enum_eq_enumFrom] at h
  simpa [dict_pairs] using h

theorem phrase_index_lt_length (p : List Nat) :
    ∀ l : List (List Nat), p ∈ l → phrase_index p l < l.length := by
  intro l
  induction l with
  | nil => intro h; simp at h
  | cons a t ih =>
      intro h
      rw [phrase_index]
      by_cases hpa : p = a
      · rw [if_pos hpa]
        simp
      · rw [if_neg hpa]
        have hmem : p ∈ t := by
          rcases List.mem_cons.mp h with hc | hc
          · exact absurd hc hpa
          · exact hc
        have := ih hmem
        simp only [List.length_cons]
        omega

theorem lookup_append_left {l₁ l₂ : List (List Nat × Nat)} {k : List Nat} {v : Nat}
    (h : l₁.lookup k = some v) : (l₁ ++ l₂).lookup k = some v := by
  induction l₁ with
  | nil => simp [List.lookup] at h
  | cons a t ih =>
      rw [List.cons_append]
      cases a with
      | mk key val =>
          rw [List.lookup_cons] at h ⊢
          cases hk : k == key with
          | true => rw [hk] at h; simpa using h
          | false => rw [hk] at h; exact ih h

theorem getD_dropLast (l : List (List Nat)) (i : Nat) (h : i + 1 < l.length) :
    l.dropLast.getD i [] = l.getD i [] := by
  rw [List.getD_eq_getElem?_getD, List.getD_eq_getElem?_getD, List.dropLast_eq_take,
    List.getElem?_take, if_pos (by omega)]

theorem getD_concat_self (l : List (List Nat)) (p : List Nat) :
    (l ++ [p]).getD l.length [] = p := by
  rw [List.getD_append_right _ _ _ _ (Nat.le_refl _), Nat.sub_self]
  rfl

theorem getD_phrase_index (p : List Nat) :
    ∀ l : List (List Nat), p ∈ l → l.getD (phrase_index p l) [] = p := by
  intro l
  induction l with
  | nil => intro h; simp at h
  | cons a t ih =>
      intro h
      rw [phrase_index]
      by_cases hpa : p = a
      · rw [if_pos hpa, List.getD_cons_zero]
        exact hpa.symm
      · rw [if_neg hpa, List.getD_cons_succ]
        refine ih ?_
        rcases List.mem_cons.mp h with hc | hc
        · exact absurd hc hpa
        · exact hc

theorem getD_mem (l : List (List Nat)) (i : Nat) (h : i < l.length) :
    l.getD i [] ∈ l := by
  rw [List.getD_eq_get _ _ h]
  exact List.get_mem l i h

theorem getD_zero_append (l : List Nat) (t : List Nat) (h : l ≠ []) :
    (l ++ t).getD 0 0 = l.getD 0 0 := by
  cases l with
  | nil => exact absurd rfl h
  | cons a s => rfl

theorem dropLast_append_getD (l : List (List Nat)) (h : l ≠ []) :
    l.dropLast ++ [l.getD (l.length - 1) []] = l := by
  have hlen : 0 < l.length := List.length_pos.mpr h
  rw [List.getD_eq_get _ _ (by omega), ← List.getLast_eq_get l h]
  exact List.dropLast_append_getLast h

/-! ### `encode_dict` and the `encode` loop -/

theorem encode_dict_eq (D : List symbol_range) (hwf : wf_ranges D = true) :
    encode_dict D = dict_pairs (decode_dict D) := by
  have hstep : ∀ n, n ≤ pw_length D →
      (List.range n).foldl
        (fun d c =>
          if (d.lookup [sym_at D c]).isSome then d else d ++ [([sym_at D c], c)]) [] =
      dict_pairs ((List.range n).map (fun c => [sym_at D c])) := by
    intro n
    induction n with
    | zero => intro _; rfl
    | succ m ih =>
        intro hle
        rw [List.range_succ, List.foldl_append, List.map_append, ih (by omega)]
        simp only [List.foldl_cons, List.foldl_nil, List.map_cons, List.map_nil]
        rw [lookup_dict_pairs]
        have hnot : [sym_at D m] ∉ (List.range m).map (fun c => [sym_at D c]) := by
          intro hc
          simp only [List.mem_map, List.mem_range] at hc
          obtain ⟨c, hc1, hc2⟩ := hc
          have h1 := wf_ios_sym_at D hwf c (by omega)
          have h2 := wf_ios_sym_at D hwf m (by omega)
          have hs : sym_at D c = sym_at D m := (List.cons.inj hc2).1
          rw [hs, h2] at h1
          have := Option.some.inj h1
          omega
        rw [if_neg hnot]
        simp only [Option.isSome_none, Bool.false_eq_true, if_false]
        rw [dict_pairs_concat]
        congr 2
        simp
  have h := hstep (pw_length D) (Nat.le_refl _)
  rw [encode_dict, h, decode_dict]

theorem encode_loop_acc :
    ∀ (rest : List Nat) (dict : List (List Nat × Nat)) (nc mc : Nat)
      (codes phrase : List Nat),
    encode_loop dict nc mc codes phrase rest =
      (codes ++ (encode_loop dict nc mc [] phrase rest).1,
       (encode_loop dict nc mc [] phrase rest).2) := by
  intro rest
  induction rest with
  | nil =>
      intro dict nc mc codes phrase
      simp [encode_loop]
  | cons s rest' ih =>
      intro dict nc mc codes phrase
      simp only [encode_loop]
      by_cases hl : ((dict.lookup (phrase ++ [s])).isSome : Prop)
      · rw [if_pos hl, if_pos hl, ih]
      · rw [if_neg hl, if_neg hl]
        rw [ih ((dict ++ [(phrase ++ [s], nc)])) (nc + 1)
          (max mc (((dict ++ [(phrase ++ [s], nc)]).lookup phrase).getD 0))
          (codes ++ [(((dict ++ [(phrase ++ [s], nc)]).lookup phrase).getD 0)]) [s],
          ih ((dict ++ [(phrase ++ [s], nc)])) (nc + 1)
          (max mc (((dict ++ [(phrase ++ [s], nc)]).lookup phrase).getD 0))
          ([] ++ [(((dict ++ [(phrase ++ [s], nc)]).lookup phrase).getD 0)]) [s]]
        simp

theorem encode_loop_max :
    ∀ (rest : List Nat) (dict : List (List Nat × Nat)) (nc mc : Nat)
      (phrase : List Nat),
    (encode_loop dict nc mc [] phrase rest).2 =
      (encode_loop dict nc mc [] phrase rest).1.foldl max mc := by
  intro rest
  induction rest with
  | nil =>
      intro dict nc mc phrase
      simp [encode_loop]
  | cons s rest' ih =>
      intro dict nc mc phrase
      simp only [encode_loop]
      by_cases hl : ((dict.lookup (phrase ++ [s])).isSome : Prop)
      · rw [if_pos hl]
        exact ih _ _ _ _
      · rw [if_neg hl]
        rw [encode_loop_acc rest']
        simp only [List.nil_append, List.append_nil, List.foldl_cons, List.foldl_append]
        exact ih _ _ _ _

theorem encode_loop_ne_nil :
    ∀ (rest : List Nat) (dict : List (List Nat × Nat)) (nc mc : Nat)
      (phrase : List Nat),
    (encode_loop dict nc mc [] phrase rest).1 ≠ [] := by
  intro rest
  induction rest with
  | nil =>
      intro dict nc mc phrase
      simp [encode_loop]
  | cons s rest' ih =>
      intro dict nc mc phrase
      simp only [encode_loop]
      by_cases hl : ((dict.lookup (phrase ++ [s])).isSome : Prop)
      · rw [if_pos hl]
        exact ih _ _ _ _
      · rw [if_neg hl]
        rw [encode_loop_acc rest']
        simp

theorem foldl_max_init_le (l : List Nat) : ∀ a : Nat, a ≤ l.foldl max a := by
  induction l with
  | nil => intro a; simp
  | cons x t ih =>
      intro a
      simp only [List.foldl_cons]
      exact Nat.le_trans (Nat.le_max_left a x) (ih _)

theorem foldl_max_le_of_mem (l : List Nat) :
    ∀ (a c : Nat), c ∈ l → c ≤ l.foldl max a := by
  induction l with
  | nil => intro a c h; simp at h
  | cons x t ih =>
      intro a c h
      simp only [List.foldl_cons]
      rcases List.mem_cons.mp h with rfl | h
      · exact Nat.le_trans (Nat.le_max_right a c) (foldl_max_init_le t _)
      · exact ih _ _ h

/-! ### The LZW decode simulation.

The encoder state is the phrase list `all` (its dictionary in code order,
`decode_dict D` a prefix) and the phrase being grown; the decoder lags one
entry behind (`all.dropLast`) with `old` the last code it consumed, and
`all`'s last entry is `all[old]` extended by the pending phrase's first
symbol. Under this invariant the decoder reproduces exactly the input the
encoder has not yet emitted. -/

theorem lzw_sim (D : List symbol_range) :
    ∀ (rest : List Nat) (all : List (List Nat)) (phrase : List Nat) (old mc : Nat),
    (∃ extras, all = decode_dict D ++ extras) →
    all.Nodup →
    (∀ p ∈ all, p ≠ []) →
    phrase ∈ all →
    (∀ s ∈ rest, [s] ∈ decode_dict D) →
    old + 1 < all.length →
    all.getD (all.length - 1) [] = all.getD old [] ++ [phrase.getD 0 0] →
    decode_loop all.dropLast old
      (encode_loop (dict_pairs all) all.length mc [] phrase rest).1 =
      phrase ++ rest := by
  intro rest
  induction rest with
  | nil =>
      intro all phrase old mc hpre hnd hne hp hrest hold hlast
      have hlook : (dict_pairs all).lookup phrase = some (phrase_index phrase all) := by
        rw [lookup_dict_pairs, if_pos hp]
      have hclt : phrase_index phrase all < all.length :=
        phrase_index_lt_length phrase all hp
      have hgetc : all.getD (phrase_index phrase all) [] = phrase :=
        getD_phrase_index phrase all hp
      have hAne : all.getD old [] ≠ [] := hne _ (getD_mem all old (by omega))
      have hlastne : all ≠ [] := by
        intro hc
        rw [hc] at hold
        simp at hold
      simp only [encode_loop, hlook, Option.getD_some, List.nil_append]
      simp only [decode_loop, List.append_nil]
      have hdllen : all.dropLast.length = all.length - 1 := List.length_dropLast all
      by_cases hcase : phrase_index phrase all < all.dropLast.length
      · have hcl : phrase_index phrase all + 1 < all.length := by
          rw [hdllen] at hcase
          omega
        rw [if_pos hcase, getD_dropLast all _ hcl, hgetc]
      · have hceq : phrase_index phrase all = all.length - 1 := by
          rw [hdllen] at hcase
          omega
        rw [if_neg hcase, getD_dropLast all old hold]
        have hphr : phrase = all.getD old [] ++ [phrase.getD 0 0] := by
          rw [← hlast, ← hceq, hgetc]
        have hhead : (all.getD old []).getD 0 0 = phrase.getD 0 0 := by
          conv_rhs => rw [hphr]
          rw [getD_zero_append _ _ hAne]
        rw [hhead]
        exact hphr.symm
  | cons s rest2 ih =>
      intro all phrase old mc hpre hnd hne hp hrest hold hlast
      have hpne : phrase ≠ [] := hne phrase hp
      simp only [encode_loop]
      by_cases hl : (((dict_pairs all).lookup (phrase ++ [s])).isSome : Prop)
      · rw [if_pos hl]
        have htmpmem : phrase ++ [s] ∈ all := by
          by_contra hc
          rw [lookup_dict_pairs, if_neg hc] at hl
          simp at hl
        have hrec := ih all (phrase ++ [s]) old mc hpre hnd hne htmpmem
          (fun x hx => hrest x (List.mem_cons_of_mem _ hx)) hold (by
            rw [getD_zero_append phrase [s] hpne]
            exact hlast)
        rw [hrec]
        simp
      · rw [if_neg hl]
        have htmpnot : phrase ++ [s] ∉ all := by
          intro hc
          rw [lookup_dict_pairs, if_pos hc] at hl
          simp at hl
        have hlookp : (dict_pairs all ++ [(phrase ++ [s], all.length)]).lookup phrase =
            some (phrase_index phrase all) :=
          lookup_append_left (by rw [lookup_dict_pairs, if_pos hp])
        simp only [hlookp, Option.getD_some]
        rw [← dict_pairs_concat,
          show all.length + 1 = (all ++ [phrase ++ [s]]).length by simp]
        rw [encode_loop_acc rest2]
        simp only [List.nil_append, List.singleton_append]
        have hclt : phrase_index phrase all < all.length :=
          phrase_index_lt_length phrase all hp
        have hgetc : all.getD (phrase_index phrase all) [] = phrase :=
          getD_phrase_index phrase all hp
        have hAne : all.getD old [] ≠ [] := hne _ (getD_mem all old (by omega))
        have hlastne : all ≠ [] := by
          intro hc
          rw [hc] at hold
          simp at hold
        have hdllen : all.dropLast.length = all.length - 1 := List.length_dropLast all
        have hsing : [s] ∈ all := by
          obtain ⟨extras, hex⟩ := hpre
          rw [hex]
          exact List.mem_append_left _ (hrest s (List.mem_cons_self s rest2))
        have hrec := ih (all ++ [phrase ++ [s]]) [s] (phrase_index phrase all)
          (max mc (phrase_index phrase all))
          (by
            obtain ⟨extras, hex⟩ := hpre
            exact ⟨extras ++ [phrase ++ [s]], by rw [hex, List.append_assoc]⟩)
          (by
            rw [List.nodup_append]
            refine ⟨hnd, List.nodup_singleton _, ?_⟩
            intro a ha hb
            rw [List.mem_singleton] at hb
            subst hb
            exact htmpnot ha)
          (by
            intro p hp2
            rcases List.mem_append.mp hp2 with hp2 | hp2
            · exact hne p hp2
            · rw [List.mem_singleton] at hp2
              subst hp2
              simp)
          (List.mem_append_left _ hsing)
          (fun x hx => hrest x (List.mem_cons_of_mem _ hx))
          (by
            simp only [List.length_append, List.length_singleton]
            omega)
          (by
            simp only [List.length_append, List.length_singleton, Nat.add_sub_cancel]
            rw [getD_concat_self,
              List.getD_append _ _ _ _ hclt, hgetc]
            rfl)
        rw [List.dropLast_concat] at hrec
        simp only [decode_loop]
        by_cases hcase : phrase_index phrase all < all.dropLast.length
        · rw [if_pos hcase]
          have hcl : phrase_index phrase all + 1 < all.length := by
            rw [hdllen] at hcase
            omega
          rw [getD_dropLast all _ hcl, hgetc, getD_dropLast all old hold, hlast.symm,
            dropLast_append_getD all hlastne, hrec]
          simp
        · rw [if_neg hcase, getD_dropLast all old hold]
          have hceq : phrase_index phrase all = all.length - 1 := by
            rw [hdllen] at hcase
            omega
          have hphr : phrase = all.getD old [] ++ [phrase.getD 0 0] := by
            rw [← hlast, ← hceq, hgetc]
          have hhead : (all.getD old []).getD 0 0 = phrase.getD 0 0 := by
            conv_rhs => rw [hphr]
            rw [getD_zero_append _ _ hAne]
          have hgl : all.getD (all.length - 1) [] = phrase := by
            rw [← hceq]
            exact hgetc
          rw [hhead, ← hphr,
            show all.dropLast ++ [phrase] = all by
              rw [← hgl]
              exact dropLast_append_getD all hlastne,
            hrec]
          simp

/-- The phase before the first emission: the phrase grows inside the base
dictionary, and the decoder's special handling of the first code consumes
the first emitted code. -/
theorem lzw_init (D : List symbol_range) (hwfD : wf_ranges D = true) :
    ∀ (rest phrase : List Nat) (mc : Nat),
    phrase ∈ decode_dict D →
    (∀ s ∈ rest, [s] ∈ decode_dict D) →
    decode_codes D
      (encode_loop (dict_pairs (decode_dict D)) (decode_dict D).length mc []
        phrase rest).1 = phrase ++ rest := by
  intro rest
  induction rest with
  | nil =>
      intro phrase mc hp hrest
      have hlook : (dict_pairs (decode_dict D)).lookup phrase =
          some (phrase_index phrase (decode_dict D)) := by
        rw [lookup_dict_pairs, if_pos hp]
      simp only [encode_loop, hlook, Option.getD_some, List.nil_append]
      simp only [decode_codes, decode_loop, List.append_nil]
      exact getD_phrase_index phrase _ hp
  | cons s rest2 ih =>
      intro phrase mc hp hrest
      have hpne : phrase ≠ [] := decode_dict_ne_nil D phrase hp
      simp only [encode_loop]
      by_cases hl : (((dict_pairs (decode_dict D)).lookup (phrase ++ [s])).isSome : Prop)
      · rw [if_pos hl]
        have htmpmem : phrase ++ [s] ∈ decode_dict D := by
          by_contra hc
          rw [lookup_dict_pairs, if_neg hc] at hl
          simp at hl
        rw [ih (phrase ++ [s]) mc htmpmem (fun x hx => hrest x (List.mem_cons_of_mem _ hx))]
        simp
      · rw [if_neg hl]
        have htmpnot : phrase ++ [s] ∉ decode_dict D := by
          intro hc
          rw [lookup_dict_pairs, if_pos hc] at hl
          simp at hl
        have hlookp : (dict_pairs (decode_dict D) ++
            [(phrase ++ [s], (decode_dict D).length)]).lookup phrase =
            some (phrase_index phrase (decode_dict D)) :=
          lookup_append_left (by rw [lookup_dict_pairs, if_pos hp])
        simp only [hlookp, Option.getD_some]
        rw [← dict_pairs_concat,
          show (decode_dict D).length + 1 =
            (decode_dict D ++ [phrase ++ [s]]).length by simp]
        rw [encode_loop_acc rest2]
        simp only [List.nil_append, List.singleton_append]
        have hclt : phrase_index phrase (decode_dict D) < (decode_dict D).length :=
          phrase_index_lt_length phrase _ hp
        have hgetc : (decode_dict D).getD (phrase_index phrase (decode_dict D)) [] =
            phrase := getD_phrase_index phrase _ hp
        have hsim := lzw_sim D rest2 (decode_dict D ++ [phrase ++ [s]]) [s]
          (phrase_index phrase (decode_dict D))
          (max mc (phrase_index phrase (decode_dict D)))
          ⟨[phrase ++ [s]], rfl⟩
          (by
            rw [List.nodup_append]
            refine ⟨decode_dict_nodup D hwfD, List.nodup_singleton _, ?_⟩
            intro a ha hb
            rw [List.mem_singleton] at hb
            subst hb
            exact htmpnot ha)
          (by
            intro p hp2
            rcases List.mem_append.mp hp2 with hp2 | hp2
            · exact decode_dict_ne_nil D p hp2
            · rw [List.mem_singleton] at hp2
              subst hp2
              simp)
          (List.mem_append_left _ (hrest s (List.mem_cons_self s rest2)))
          (fun x hx => hrest x (List.mem_cons_of_mem _ hx))
          (by
            simp only [List.length_append, List.length_singleton]
            omega)
          (by
            simp only [List.length_append, List.length_singleton, Nat.add_sub_cancel]
            rw [getD_concat_self, List.getD_append _ _ _ _ hclt, hgetc]
            rfl)
        rw [List.dropLast_concat] at hsim
        simp only [decode_codes]
        rw [hgetc, hsim]
        simp

/-- On a non-empty input whose symbols all belong to the input alphabet, the
decoder applied to the encoder's emitted codes reproduces the input. -/
theorem decode_codes_encode_pass (D : List symbol_range) (hwfD : wf_ranges D = true)
    (first : Nat) (rest : List Nat)
    (hfirst : [first] ∈ decode_dict D) (hrest : ∀ s ∈ rest, [s] ∈ decode_dict D) :
    decode_codes D (encode_pass D first rest).1 = first :: rest := by
  simp only [encode_pass]
  rw [encode_dict_eq D hwfD, dict_pairs_length]
  have h := lzw_init D hwfD rest [first] ((decode_dict D).length - 1) hfirst hrest
  simpa using h

/-- The padding written into the second header symbol is the complement of
`bits mod capacity`, not `bits mod capacity` itself. -/
theorem pack_dead_bits_mod (cap bits : Nat) (hcap : 1 ≤ cap) (hbits : 1 ≤ bits) :
    pack_dead_bits cap bits = (cap - bits % cap) % cap := by
  obtain ⟨hcount, hdead⟩ := pack_sym_count cap bits hcap hbits
  have hmul : (bits + pack_dead_bits cap bits) % cap = 0 := by
    rw [← hcount]
    exact Nat.mul_mod_left _ _
  have hrlt : bits % cap < cap := Nat.mod_lt _ (by omega)
  have hadd : (bits + pack_dead_bits cap bits) % cap =
      (bits % cap + pack_dead_bits cap bits) % cap := by
    rw [Nat.add_mod, Nat.mod_eq_of_lt hdead]
  rw [hadd] at hmul
  have hdm := Nat.div_add_mod (bits % cap + pack_dead_bits cap bits) cap
  rw [hmul, Nat.add_zero] at hdm
  have hlt : bits % cap + pack_dead_bits cap bits < 2 * cap := by omega
  have hq2 : (bits % cap + pack_dead_bits cap bits) / cap < 2 := by
    have h2 : cap * ((bits % cap + pack_dead_bits cap bits) / cap) < cap * 2 := by
      rw [hdm]
      omega
    exact Nat.lt_of_mul_lt_mul_left h2
  generalize hqe : (bits % cap + pack_dead_bits cap bits) / cap = q at hq2 hdm
  have hq : q = 0 ∨ q = 1 := by omega
  rcases hq with hq0 | hq1
  · rw [hq0, Nat.mul_zero] at hdm
    have hr0 : bits % cap = 0 := by omega
    have hd0 : pack_dead_bits cap bits = 0 := by omega
    rw [hd0, hr0, Nat.sub_zero, Nat.mod_self]
  · rw [hq1, Nat.mul_one] at hdm
    have he : cap - bits % cap = pack_dead_bits cap bits := by omega
    rw [he, Nat.mod_eq_of_lt hdead]

/-- `log2_ceil` at an exact power of two (`k + 1` bits address `2^(k+1)` values). -/
theorem log2_ceil_two_pow_succ (k : Nat) : log2_ceil (2 ^ (k + 1)) = k + 1 := by
  rw [log2_ceil]
  have h1 : ¬ 2 ^ (k + 1) ≤ 1 := by
    have := Nat.one_lt_two_pow_iff.mpr (Nat.succ_ne_zero k)
    omega
  simp [h1, log2_floor_two_pow_sub_one]

/-- `log2_ceil` one past an exact power of two. -/
theorem log2_ceil_two_pow_add_one (k : Nat) : log2_ceil (2 ^ k + 1) = k + 1 := by
  rw [log2_ceil]
  have h1 : ¬ 2 ^ k + 1 ≤ 1 := by
    have := Nat.pos_pow_of_pos k (show 0 < 2 by omega)
    omega
  simp [h1, log2_floor_two_pow]

/-- `bit_capacity` of the 16-symbol pack alphabet. -/
theorem bit_capacity_P16_eq : bit_capacity P16 = 4 := by
  rw [bit_capacity, show pw_length P16 = 16 by decide, show (16 : Nat) = 2 ^ 4 by norm_num,
    log2_floor_two_pow]

/-- `bit_capacity` of the 8-symbol pack alphabet. -/
theorem bit_capacity_P8_eq : bit_capacity P8 = 3 := by
  rw [bit_capacity, show pw_length P8 = 8 by decide, show (8 : Nat) = 2 ^ 3 by norm_num,
    log2_floor_two_pow]

/-- `log2_ceil 4`, the bit depth a 4-entry dictionary discovers. -/
theorem log2_ceil_four : log2_ceil 4 = 2 := by
  have h := log2_ceil_two_pow_succ 1
  norm_num at h
  exact h

/-- `log2_ceil 17`, the bit depth discovered once code 16 is emitted. -/
theorem log2_ceil_seventeen : log2_ceil 17 = 5 := by
  have h := log2_ceil_two_pow_add_one 4
  norm_num at h
  exact h

/-! ### Unfolding helpers for `encode` and `decode` on non-empty input -/

theorem encode_err_overflow (D P : List symbol_range) (first : Nat) (rest : List Nat)
    (h : size_t_bits < log2_ceil ((encode_pass D first rest).2 + 1)) :
    encode D P (first :: rest) = .error .depthOverflow := by
  simp only [encode]
  rw [if_pos h]

theorem encode_err_unpackable (D P : List symbol_range) (first : Nat) (rest : List Nat)
    (h1 : log2_ceil ((encode_pass D first rest).2 + 1) ≤ size_t_bits)
    (h2 : pw_length P ≤ log2_ceil ((encode_pass D first rest).2 + 1)) :
    encode D P (first :: rest) = .error .depthUnpackable := by
  simp only [encode]
  rw [if_neg (by omega), if_pos h2]

theorem encode_eq_pack (D P : List symbol_range) (first : Nat) (rest : List Nat)
    (h1 : log2_ceil ((encode_pass D first rest).2 + 1) ≤ size_t_bits)
    (h2 : log2_ceil ((encode_pass D first rest).2 + 1) < pw_length P) :
    encode D P (first :: rest) =
      pack_bits P (encode_pass D first rest).1
        (log2_ceil ((encode_pass D first rest).2 + 1)) := by
  simp only [encode]
  rw [if_neg (by omega), if_neg (by omega)]

theorem encode_pass_ne_nil (D : List symbol_range) (first : Nat) (rest : List Nat) :
    (encode_pass D first rest).1 ≠ [] := by
  simp only [encode_pass]
  exact encode_loop_ne_nil rest _ _ _ _

theorem decode_cons (D P : List symbol_range) (x : Nat) (xs codes : List Nat)
    (h : unpack_bits P (x :: xs) = .ok codes) :
    decode D P (x :: xs) = .ok (decode_codes D codes) := by
  rw [decode, h]
  rfl

/-! ### The claims -/

/-- C1 (corrected): the unconditional round trip fails because `encode` can
throw CapacityExceeded on perfectly valid alphabet input (see the
counterexample); what holds is: `encode [] = []`, `decode [] = []`, and
whenever `encode` succeeds on input over the codec's input alphabet,
`decode` applied to its output returns exactly the input. -/
theorem C1_roundtrip (D P : List symbol_range) (input : List Nat)
    (hwfD : wf_ranges D = true) (hwfP : wf_ranges P = true)
    (hin : ∀ s ∈ input, (index_of_symbol D s).isSome = true) :
    encode D P [] = .ok [] ∧ decode D P [] = .ok [] ∧
    ∀ out, encode D P input = .ok out → decode D P out = .ok input := by
  refine ⟨rfl, rfl, ?_⟩
  intro out henc
  have hmem : ∀ s ∈ input, [s] ∈ decode_dict D := by
    intro s hs
    obtain ⟨i, hi⟩ := Option.isSome_iff_exists.mp (hin s hs)
    exact singleton_mem_decode_dict D s i hi
  cases input with
  | nil =>
      simp only [encode] at henc
      obtain rfl : ([] : List Nat) = out := Except.ok.inj henc
      rfl
  | cons first rest =>
      simp only [encode] at henc
      by_cases h1 : size_t_bits < log2_ceil ((encode_pass D first rest).2 + 1)
      · rw [if_pos h1] at henc
        exact absurd henc (by simp)
      rw [if_neg h1] at henc
      by_cases h2 : pw_length P ≤ log2_ceil ((encode_pass D first rest).2 + 1)
      · rw [if_pos h2] at henc
        exact absurd henc (by simp)
      rw [if_neg h2] at henc
      set cs := (encode_pass D first rest).1 with hcs
      set bd := log2_ceil ((encode_pass D first rest).2 + 1) with hbd
      have hbd1 : 1 ≤ bd := log2_ceil_pos _
      have hbdP : bd < pw_length P := by omega
      have hne : cs ≠ [] := by
        rw [hcs]
        exact encode_pass_ne_nil D first rest
      have hvals : ∀ c ∈ cs, c < 2 ^ bd := by
        intro c hc
        have hmax : (encode_pass D first rest).2 =
            cs.foldl max ((encode_dict D).length - 1) := by
          rw [hcs]
          simp only [encode_pass]
          exact encode_loop_max rest _ _ _ _
        have hc2 : c ≤ (encode_pass D first rest).2 := by
          rw [hmax]
          exact foldl_max_le_of_mem cs _ c hc
        have hle := le_two_pow_log2_ceil ((encode_pass D first rest).2 + 1)
        rw [← hbd] at hle
        omega
      obtain ⟨packed, hpk, hup⟩ := unpack_bits_pack_bits P cs bd hwfP hbd1 hbdP hne hvals
      rw [hpk] at henc
      obtain rfl : packed = out := Except.ok.inj henc
      have hshape := pack_bits_ok P cs bd hbd1 hbdP hne
      rw [hpk] at hshape
      have hpacked := Except.ok.inj hshape
      rw [hpacked] at hup ⊢
      rw [decode_cons D P _ _ _ hup, hcs,
        decode_codes_encode_pass D hwfD first rest
          (hmem first (List.mem_cons_self first rest))
          (fun s hs => hmem s (List.mem_cons_of_mem _ hs))]

/-- C1 counterexample: over a 16-symbol input alphabet and 5-symbol pack
alphabet, encoding `[0, 0, 0]` discovers `bit_depth = 5 ≥ pw_length P5` and
throws CapacityExceeded instead of producing a stream to round-trip. -/
theorem C1_encode_failure_counterexample :
    encode D16 P5 [0, 0, 0] = .error .depthUnpackable := by
  have hdep : log2_ceil ((encode_pass D16 0 [0, 0]).2 + 1) = 5 := by
    rw [show (encode_pass D16 0 [0, 0]).2 = 16 from by decide]
    exact log2_ceil_seventeen
  exact encode_err_unpackable D16 P5 0 [0, 0] (by rw [hdep]; decide) (by rw [hdep]; decide)

/-- C1 witness: encoding `[0]` over the 4-symbol alphabet succeeds with
stream `[2, 2, 0]`, and decoding it restores `[0]`. -/
theorem C1_roundtrip_witness : decode D4 P16 [2, 2, 0] = .ok [0] := by
  have hdep : log2_ceil ((encode_pass D4 0 []).2 + 1) = 2 := by
    rw [show (encode_pass D4 0 []).2 = 3 from by decide]
    exact log2_ceil_four
  have henc : encode D4 P16 [0] = .ok [2, 2, 0] := by
    rw [show ([0] : List Nat) = 0 :: [] from rfl,
      encode_eq_pack D4 P16 0 [] (by rw [hdep]; decide) (by rw [hdep]; decide), hdep,
      show (encode_pass D4 0 []).1 = [0] from by decide,
      pack_bits_ok P16 [0] 2 (by omega) (by decide) (by decide), bit_capacity_P16_eq]
    decide
  exact (C1_roundtrip D4 P16 [0] (by decide) (by decide) (by decide)).2.2 [2, 2, 0] henc

/-- C2 (corrected): `max_code` is seeded with `initial dictionary size - 1`,
so the chosen `bit_depth = log2_ceil(max_code + 1)` is the smallest width
covering both the seed and every emitted code — not the smallest integer
with `2^bit_depth > maxEmittedCode` (the counterexample has
`maxEmittedCode = 0` yet `bit_depth = 2`). -/
theorem C2_bit_depth (D : List symbol_range) (first : Nat) (rest : List Nat) :
    (encode_pass D first rest).2 =
      (encode_pass D first rest).1.foldl max ((encode_dict D).length - 1) ∧
    (encode_pass D first rest).2 < 2 ^ log2_ceil ((encode_pass D first rest).2 + 1) ∧
    (∀ b, 1 ≤ b → (encode_pass D first rest).2 < 2 ^ b →
      log2_ceil ((encode_pass D first rest).2 + 1) ≤ b) := by
  refine ⟨?_, ?_, ?_⟩
  · simp only [encode_pass]
    exact encode_loop_max rest _ _ _ _
  · have := le_two_pow_log2_ceil ((encode_pass D first rest).2 + 1)
    omega
  · intro b hb h
    exact log2_ceil_le _ b hb (by omega)

/-- C2 counterexample: encoding `[0]` over the 4-symbol alphabet emits only
code `0` (so the smallest width with `2^w > 0` is `0`), yet `max_code` is
`3` (the seed) and the chosen `bit_depth` is `2`. -/
theorem C2_seeded_max_counterexample :
    (encode_pass D4 0 []).1 = [0] ∧ (encode_pass D4 0 []).2 = 3 ∧
      (0 : Nat) < 2 ^ 0 ∧ log2_ceil ((encode_pass D4 0 []).2 + 1) = 2 := by
  refine ⟨by decide, by decide, by decide, ?_⟩
  rw [show (encode_pass D4 0 []).2 = 3 from by decide]
  exact log2_ceil_four

/-- C2 witness: the characterization instantiated at the counterexample
input. -/
theorem C2_bit_depth_witness :
    (encode_pass D4 0 []).2 =
      (encode_pass D4 0 []).1.foldl max ((encode_dict D4).length - 1) ∧
    (encode_pass D4 0 []).2 < 2 ^ log2_ceil ((encode_pass D4 0 []).2 + 1) ∧
    (∀ b, 1 ≤ b → (encode_pass D4 0 []).2 < 2 ^ b →
      log2_ceil ((encode_pass D4 0 []).2 + 1) ≤ b) :=
  C2_bit_depth D4 0 []

/-- C3 (corrected): `decode` performs no validity check at all: a code other
than the next-to-be-assigned one that is `≥` the current dictionary size
takes the same self-referential branch and produces output — no
MalformedStream is raised. In particular a stream carrying the code
`dictionary size + 2` decodes without error. -/
theorem C3_out_of_range_code (D P : List symbol_range) (bd : Nat)
    (hwfP : wf_ranges P = true) (hD : 1 ≤ pw_length D) (hbd1 : 1 ≤ bd)
    (hbdP : bd < pw_length P) (hrange : pw_length D + 3 ≤ 2 ^ bd) :
    ∃ packed, pack_bits P [0, pw_length D + 2] bd = .ok packed ∧
      decode D P packed = .ok [sym_at D 0, sym_at D 0, sym_at D 0] := by
  have hne : ([0, pw_length D + 2] : List Nat) ≠ [] := by simp
  have hvals : ∀ c ∈ ([0, pw_length D + 2] : List Nat), c < 2 ^ bd := by
    intro c hc
    have h2 : 2 ≤ 2 ^ bd := by
      calc 2 = 2 ^ 1 := by norm_num
      _ ≤ 2 ^ bd := Nat.pow_le_pow_right (by omega) hbd1
    simp only [List.mem_cons, List.mem_singleton, List.not_mem_nil, or_false] at hc
    rcases hc with rfl | rfl <;> omega
  obtain ⟨packed, hpk, hup⟩ :=
    unpack_bits_pack_bits P [0, pw_length D + 2] bd hwfP hbd1 hbdP hne hvals
  have hshape := pack_bits_ok P [0, pw_length D + 2] bd hbd1 hbdP hne
  rw [hpk] at hshape
  have hpacked := Except.ok.inj hshape
  refine ⟨packed, hpk, ?_⟩
  rw [hpacked] at hup ⊢
  rw [decode_cons D P _ _ _ hup]
  congr 1
  simp only [decode_codes, decode_loop]
  rw [decode_dict_length, decode_dict_getD D 0 (by omega),
    if_neg (by omega : ¬ pw_length D + 2 < pw_length D)]
  simp

/-- C3 counterexample: over the 4-symbol input alphabet, the packed stream
`[3, 2, 0, 3]` carries the codes `[0, 6]`; `6` is two past the dictionary
size `4`, yet decode returns `[0, 0, 0]` instead of a MalformedStream
error. -/
theorem C3_junk_accepted_counterexample :
    decode D4 P16 [3, 2, 0, 3] = .ok [0, 0, 0] := by
  have hup : unpack_bits P16 [3, 2, 0, 3] = .ok [0, 6] := by
    rw [unpack_bits_cons P16 3 2 0 [3] 3 2 0 [3] rfl rfl rfl rfl, bit_capacity_P16_eq]
    have hloop := unpack_loop_spec 4 3 2 (by omega) (by omega) (by omega)
      9 [3] 0 0 (by decide) (by decide) (by decide) (by decide)
    norm_num at hloop
    rw [show (4 : Nat) * (List.length ([3] : List Nat) + 1) + 1 = 9 from by decide, hloop]
    rw [show chunkNum 4 [3] = 3 from by decide]
    norm_num
    rw [unpackNum]
    norm_num
    rw [unpackNum]
    norm_num
    rw [unpackNum]
    norm_num
  rw [decode_cons D4 P16 _ _ _ hup]
  congr 1

/-- C3 witness: the general statement instantiated at the 4-symbol input
alphabet with `bit_depth = 3`. -/
theorem C3_out_of_range_code_witness :
    ∃ packed, pack_bits P16 [0, pw_length D4 + 2] 3 = .ok packed ∧
      decode D4 P16 packed = .ok [sym_at D4 0, sym_at D4 0, sym_at D4 0] :=
  C3_out_of_range_code D4 P16 3 (by decide) (by decide) (by decide) (by decide)
    (by decide)

/-- C4 (confirmed): for a bit depth in `[1, native width]` that is a valid
pack-alphabet index, packing any non-empty code sequence with values below
`2^bit_depth` and unpacking the result restores the codes exactly. -/
theorem C4_pack_unpack_roundtrip (P : List symbol_range) (codes : List Nat)
    (bit_depth : Nat) (hwfP : wf_ranges P = true) (hd1 : 1 ≤ bit_depth)
    (hw : bit_depth ≤ size_t_bits) (hdP : bit_depth < pw_length P)
    (hne : codes ≠ []) (hvals : ∀ c ∈ codes, c < 2 ^ bit_depth) :
    ∃ packed, pack_bits P codes bit_depth = .ok packed ∧
      unpack_bits P packed = .ok codes :=
  unpack_bits_pack_bits P codes bit_depth hwfP hd1 hdP hne hvals

/-- C4 witness: the round trip at `bit_depth = 3`, codes `[0, 6]`, over the
16-symbol pack alphabet. -/
theorem C4_pack_unpack_roundtrip_witness :
    ∃ packed, pack_bits P16 [0, 6] 3 = .ok packed ∧
      unpack_bits P16 packed = .ok [0, 6] :=
  C4_pack_unpack_roundtrip P16 [0, 6] 3 (by decide) (by decide) (by decide)
    (by decide) (by decide) (by decide)

/-- C5 (corrected): the CapacityExceeded conditions are `bit_depth` above
the native width and `bit_depth ≥ PackDict::length` — the depth itself must
be a valid pack index; the claim's `2^bit_depth > capacity` is wrong (see
the counterexample, where `2^bit_depth` exceeds the alphabet size and
encode still succeeds). Both failures abort the pass with no partial
output. -/
theorem C5_capacity_exceeded (D P : List symbol_range) (first : Nat) (rest : List Nat) :
    (size_t_bits < log2_ceil ((encode_pass D first rest).2 + 1) →
      encode D P (first :: rest) = .error .depthOverflow) ∧
    (log2_ceil ((encode_pass D first rest).2 + 1) ≤ size_t_bits →
      pw_length P ≤ log2_ceil ((encode_pass D first rest).2 + 1) →
      encode D P (first :: rest) = .error .depthUnpackable) ∧
    (log2_ceil ((encode_pass D first rest).2 + 1) ≤ size_t_bits →
      log2_ceil ((encode_pass D first rest).2 + 1) < pw_length P →
      ∃ out, encode D P (first :: rest) = .ok out) := by
  refine ⟨encode_err_overflow D P first rest,
    encode_err_unpackable D P first rest, ?_⟩
  intro h1 h2
  rw [encode_eq_pack D P first rest h1 h2]
  exact ⟨_, pack_bits_ok P _ _ (log2_ceil_pos _) h2 (encode_pass_ne_nil D first rest)⟩

/-- C5 counterexample: encoding `[0, 0, 0]` over the 16-symbol alphabets
discovers `bit_depth = 5`, whose code space `2^5 = 32` exceeds the pack
capacity 16 — the claim predicts CapacityExceeded — yet encode succeeds,
because all the code requires is `5 < 16`. -/
theorem C5_capacity_counterexample :
    pw_length P16 < 2 ^ log2_ceil ((encode_pass D16 0 [0, 0]).2 + 1) ∧
    ∃ out, encode D16 P16 (0 :: [0, 0]) = .ok out := by
  have hdep : log2_ceil ((encode_pass D16 0 [0, 0]).2 + 1) = 5 := by
    rw [show (encode_pass D16 0 [0, 0]).2 = 16 from by decide]
    exact log2_ceil_seventeen
  refine ⟨by rw [hdep]; decide, ?_⟩
  rw [encode_eq_pack D16 P16 0 [0, 0] (by rw [hdep]; decide) (by rw [hdep]; decide)]
  exact ⟨_, pack_bits_ok P16 _ _ (log2_ceil_pos _) (by rw [hdep]; decide)
    (encode_pass_ne_nil D16 0 [0, 0])⟩

/-- C5 witness: the depth-unpackable branch at the 16-symbol input alphabet
over the 5-symbol pack alphabet. -/
theorem C5_capacity_exceeded_witness :
    encode D16 P5 (0 :: [0, 0]) = .error .depthUnpackable := by
  have hdep : log2_ceil ((encode_pass D16 0 [0, 0]).2 + 1) = 5 := by
    rw [show (encode_pass D16 0 [0, 0]).2 = 16 from by decide]
    exact log2_ceil_seventeen
  exact (C5_capacity_exceeded D16 P5 0 [0, 0]).2.1 (by rw [hdep]; decide)
    (by rw [hdep]; decide)

/-- C6 (corrected): the dead-bits header symbol is below the pack capacity,
but its value is the complement `(cap - bits % cap) % cap` (padding up to a
whole symbol), not `bits % cap` as claimed. -/
theorem C6_dead_bits (P : List symbol_range) (src : List Nat) (bit_depth : Nat)
    (hd1 : 1 ≤ bit_depth) (hdP : bit_depth < pw_length P) (hsrc : src ≠ []) :
    ∃ payload, pack_bits P src bit_depth =
        .ok (sym_at P bit_depth ::
          sym_at P (pack_dead_bits (bit_capacity P) (bit_depth * src.length)) ::
          payload) ∧
      pack_dead_bits (bit_capacity P) (bit_depth * src.length) < bit_capacity P ∧
      pack_dead_bits (bit_capacity P) (bit_depth * src.length) =
        (bit_capacity P - (bit_depth * src.length) % bit_capacity P) %
          bit_capacity P := by
  have hpw2 : 2 ≤ pw_length P := by omega
  have hcap := bit_capacity_pos P hpw2
  have hbits : 1 ≤ bit_depth * src.length := by
    have h0 : src.length ≠ 0 := fun h => hsrc (List.length_eq_zero.mp h)
    have h2 : 1 ≤ src.length := by omega
    calc 1 = 1 * 1 := rfl
    _ ≤ bit_depth * src.length := Nat.mul_le_mul hd1 h2
  exact ⟨_, pack_bits_ok P src bit_depth hd1 hdP hsrc,
    (pack_sym_count _ _ hcap hbits).2, pack_dead_bits_mod _ _ hcap hbits⟩

/-- C6 counterexample: one 2-bit code into 3-bit pack symbols: the header
records 1 dead bit, while the claimed formula `(codeCount*bit_depth) mod
capacity` gives 2. -/
theorem C6_mod_counterexample :
    bit_capacity P8 = 3 ∧ pack_dead_bits 3 2 = 1 ∧ (2 : Nat) % 3 = 2 :=
  ⟨bit_capacity_P8_eq, by decide, by decide⟩

/-- C6 witness: the header characterization at `pack_bits P8 [0] 2`. -/
theorem C6_dead_bits_witness :
    ∃ payload, pack_bits P8 [0] 2 =
        .ok (sym_at P8 2 ::
          sym_at P8 (pack_dead_bits (bit_capacity P8) (2 * ([0] : List Nat).length)) ::
          payload) ∧
      pack_dead_bits (bit_capacity P8) (2 * ([0] : List Nat).length) <
        bit_capacity P8 ∧
      pack_dead_bits (bit_capacity P8) (2 * ([0] : List Nat).length) =
        (bit_capacity P8 - (2 * ([0] : List Nat).length) % bit_capacity P8) %
          bit_capacity P8 :=
  C6_dead_bits P8 [0] 2 (by decide) (by decide) (by decide)

/-- C7 (corrected): a partially assembled code at input exhaustion is
emitted, not discarded: the unpacking loop drops pending bits only when it
stops exactly at the declared dead-bits boundary with zero bits of the next
code read. Whenever at most `bit_depth` payload bits remain at a code
boundary and they do not equal the dead-bits count, their value is emitted
as one (possibly partial) code. -/
theorem C7_partial_code_emitted (cap bit_depth dead_bits budget : Nat)
    (rem : List Nat) (ch sd : Nat) (hcap : 1 ≤ cap) (hdepth : 1 ≤ bit_depth)
    (hdead : dead_bits < cap) (hrem : ∀ x ∈ rem, x < 2 ^ cap) (hch : ch < 2 ^ cap)
    (hsd : sd < cap) (hbudget : cap - sd + cap * rem.length + 1 ≤ budget)
    (hshortfall : cap - sd + cap * rem.length ≤ bit_depth)
    (hnotdead : cap - sd + cap * rem.length ≠ dead_bits) :
    unpack_loop budget cap bit_depth dead_bits rem ch sd =
      [ch / 2 ^ sd + chunkNum cap rem * 2 ^ (cap - sd)] := by
  rw [unpack_loop_spec cap bit_depth dead_bits hcap hdepth hdead budget rem ch sd
    hrem hch hsd hbudget]
  rw [unpackNum, if_neg (by omega : ¬ bit_depth = 0), if_neg hnotdead,
    if_pos hshortfall]

/-- C7 counterexample: `[3, 0, 9]` declares 3-bit codes and 0 dead bits over
the 16-symbol pack alphabet; its 4 payload bits hold one full code and one
single-bit partial code, and unpack emits both — `[1, 1]`, where the claim
predicts the partial code is discarded. -/
theorem C7_partial_emitted_counterexample :
    unpack_bits P16 [3, 0, 9] = .ok [1, 1] := by
  rw [unpack_bits_cons P16 3 0 9 [] 3 0 9 [] rfl rfl rfl rfl, bit_capacity_P16_eq]
  have hloop := unpack_loop_spec 4 3 0 (by omega) (by omega) (by omega)
    5 [] 9 0 (by decide) (by decide) (by decide) (by decide)
  rw [show (4 : Nat) * (List.length ([] : List Nat) + 1) + 1 = 5 from by decide,
    hloop, show chunkNum 4 [] = 0 from rfl]
  norm_num
  rw [unpackNum]
  norm_num
  rw [unpackNum]
  norm_num

/-- C7 witness: the emission statement at a concrete mid-code exhaustion
(one unread bit of a 3-bit code). -/
theorem C7_partial_code_emitted_witness :
    unpack_loop 2 4 3 0 [] 9 3 = [9 / 2 ^ 3 + chunkNum 4 [] * 2 ^ (4 - 3)] :=
  C7_partial_code_emitted 4 3 0 2 [] 9 3 (by decide) (by decide) (by decide)
    (by decide) (by decide) (by decide) (by decide) (by decide) (by decide)

/-- C8 (corrected): a one-symbol stream of a valid pack symbol makes unpack
(and decode) fail with the first MalformedStream error, but an empty stream
is not an error: unpack returns the empty code sequence, so "fails whenever
fewer than two symbols are available" overstates the zero-symbol case. -/
theorem C8_short_header (D P : List symbol_range) (s i : Nat)
    (h : ios P s = .ok i) :
    unpack_bits P [s] = .error .badData1 ∧ decode D P [s] = .error .badData1 ∧
    unpack_bits P [] = .ok [] := by
  have hu : unpack_bits P [s] = .error .badData1 := by
    rw [unpack_bits, h]
    rfl
  refine ⟨hu, ?_, rfl⟩
  rw [decode, hu]
  rfl

/-- C8 counterexample: the empty stream has fewer than two symbols yet does
not fail. -/
theorem C8_empty_stream_counterexample : unpack_bits P16 [] = .ok [] := rfl

/-- C8 witness: the one-symbol failure and zero-symbol success at the
16-symbol pack alphabet. -/
theorem C8_short_header_witness :
    unpack_bits P16 [5] = .error .badData1 ∧ decode D4 P16 [5] = .error .badData1 ∧
    unpack_bits P16 [] = .ok [] :=
  C8_short_header D4 P16 5 5 rfl

/-- C10 (confirmed): a stream of exactly two pack symbols — a complete
header with no payload — always fails with the second MalformedStream
error; decode never returns an empty output for it. -/
theorem C10_two_symbol_header (D P : List symbol_range) (s0 s1 i0 i1 : Nat)
    (h0 : ios P s0 = .ok i0) (h1 : ios P s1 = .ok i1) :
    unpack_bits P [s0, s1] = .error .badData2 ∧
    decode D P [s0, s1] = .error .badData2 := by
  have hu : unpack_bits P [s0, s1] = .error .badData2 := by
    rw [unpack_bits, h0, h1]
    rfl
  exact ⟨hu, by rw [decode, hu]; rfl⟩

/-- C10 witness: the two-symbol header failure at the 16-symbol pack
alphabet. -/
theorem C10_two_symbol_header_witness :
    unpack_bits P16 [5, 0] = .error .badData2 ∧
    decode D4 P16 [5, 0] = .error .badData2 :=
  C10_two_symbol_header D4 P16 5 0 5 0 rfl rfl

end LZW
